import Mathlib

/-! BinaryTree (laba1_10.cpp): subtree classification, XML codec, generation.

Shallow embedding of `class BinaryTree` of `src/laba1_10.cpp`.

* `std::unique_ptr<Top>` / `const Top*` (a possibly null pointer to a node that
  exclusively owns its two children) is the inductive type `Top`.
* A pointer held in a `std::queue<const Top*>` is never null; it is a `Node`,
  the three fields of the node it points to.
* tinyxml2 is an external library: an element is its name, its attributes and
  its children; an `int` attribute is stored as the integer it denotes.
* A `Top*` of the queue of `generate` / `generateRnd`, through which the tree
  under construction is assigned to, is the path from the root to the node.
* The random engine is a list of deliveries consumed front to back; a call that
  would need more deliveries than the list holds yields `none`.
* `int` is `Int`.  The only arithmetic the program does on `int` is counting
  nodes (below `2^31` for every tree the program can hold) and `resizeRange`,
  which is embedded with explicit 32-bit wrap-around.
* What `printAllSubtrees` writes is the sequence of its headings and entries
  (number, root value, label, vertex list), not the characters.

The file has two parts: the definitions (the embedding, then the vocabulary of
the specification), and the theorems.
-/

namespace BinaryTree

/-! ## Data model -/

/-- A (possibly null) owning pointer to a `struct Top`. -/
inductive Top where
  | null : Top
  | node (digital_top : Int) (left right : Top) : Top
  deriving DecidableEq

/-- The target of a non-null `Top*`: the fields of the node pointed to. -/
structure Node where
  digital_top : Int
  left : Top
  right : Top
  deriving DecidableEq

/-- The owning pointer whose target is the given node. -/
def Node.toTop (n : Node) : Top := Top.node n.digital_top n.left n.right

/-- Number of nodes, as a natural number (used as a termination measure). -/
def Top.size : Top → Nat
  | .null => 0
  | .node _ l r => 1 + l.size + r.size

/-- Total number of nodes reachable from the pointers of a queue. -/
def queueSize (q : List Node) : Nat :=
  (q.map (fun n => 1 + n.left.size + n.right.size)).sum

/-! ## The four predicates (source lines 74-137) -/

/-- Source `isMaxHeap`, lines 74-85. -/
def isMaxHeap : Top → Bool
  | .null => true
  | .node digital_top left right =>
    (match left with
      | .null => true
      | .node lv _ _ => !decide (digital_top < lv) && isMaxHeap left) &&
    (match right with
      | .null => true
      | .node rv _ _ => !decide (digital_top < rv) && isMaxHeap right)

/-- Source `isMinHeap`, lines 87-98. -/
def isMinHeap : Top → Bool
  | .null => true
  | .node digital_top left right =>
    (match left with
      | .null => true
      | .node lv _ _ => !decide (digital_top > lv) && isMinHeap left) &&
    (match right with
      | .null => true
      | .node rv _ _ => !decide (digital_top > rv) && isMinHeap right)

/-- The `while (!q.empty())` loop of `isCompleteBinaryTree`, lines 106-124:
the state is the queue and the flag `mustBeLeaf`; the result is the value
returned by the function. -/
def completeLoop (q : List Node) (mustBeLeaf : Bool) : Bool :=
  match q with
  | [] => true
  | ⟨_, left, right⟩ :: q =>
    match left, right with
    | .node lv ll lr, .node rv rl rr =>
      if mustBeLeaf then false
      else completeLoop (q ++ [⟨lv, ll, lr⟩] ++ [⟨rv, rl, rr⟩]) mustBeLeaf
    | .node lv ll lr, .null =>
      if mustBeLeaf then false
      else completeLoop (q ++ [⟨lv, ll, lr⟩]) true
    | .null, .node _ _ _ => false
    | .null, .null => completeLoop q true
termination_by queueSize q
decreasing_by
  all_goals simp_wf
  all_goals simp [queueSize, Top.size]
  all_goals omega

/-- Source `isCompleteBinaryTree`, lines 101-126. -/
def isCompleteBinaryTree : Top → Bool
  | .null => true
  | .node v l r => completeLoop [⟨v, l, r⟩] false

/-- Source `isLeftLessThanRight`, lines 128-137. -/
def isLeftLessThanRight : Top → Bool
  | .null => true
  | .node _ left right =>
    let currentValid :=
      match left, right with
      | .node lv _ _, .node rv _ _ => !decide (lv ≥ rv)
      | _, _ => true
    currentValid && isLeftLessThanRight left && isLeftLessThanRight right

/-- Source `collectSubtreeNodes`, lines 139-144: the vector after the call,
given the vector before it. -/
def collectSubtreeNodes : Top → List Int → List Int
  | .null, nodes => nodes
  | .node v l r, nodes =>
    collectSubtreeNodes r (collectSubtreeNodes l (nodes ++ [v]))

/-- Source `checkHeap_notHeap`, lines 209-225: the two counters after the
call, given the counters before it. -/
def checkHeap_notHeap : Top → Int × Int → Int × Int
  | .null, c => c
  | .node v l r, (heap_count, nonheap_count) =>
    let node := Top.node v l r
    let isMax := isMaxHeap node
    let isMin := isMinHeap node
    let complete := isCompleteBinaryTree node
    let left_mini := isLeftLessThanRight node
    let c :=
      if (isMax || isMin) && complete && left_mini then
        (heap_count + 1, nonheap_count)
      else
        (heap_count, nonheap_count + 1)
    checkHeap_notHeap r (checkHeap_notHeap l c)

/-- Source `countNodes`, lines 227-230. -/
def countNodes : Top → Int
  | .null => 0
  | .node _ l r => 1 + countNodes l + countNodes r


/-! ## XML codec (source lines 39-71, 379-405) -/

/-- A tinyxml2 element: its name, its attributes and its child elements in document order. -/
inductive XMLElement where
  | mk (name : String) (attributes : List (String × Int)) (children : List XMLElement)

/-- The element name. -/
def XMLElement.Name : XMLElement → String
  | .mk n _ _ => n

/-- The attribute list. -/
def XMLElement.attributes : XMLElement → List (String × Int)
  | .mk _ a _ => a

/-- The child elements. -/
def XMLElement.children : XMLElement → List XMLElement
  | .mk _ _ c => c

/-- Library call `XMLDocument::NewElement`: a fresh element with no attribute and no child. -/
def NewElement (name : String) : XMLElement := .mk name [] []

/-- Library call `XMLElement::SetAttribute(name, int)`: the attribute is set, replacing
an earlier one of that name. -/
def XMLElement.SetAttribute (e : XMLElement) (name : String) (value : Int) : XMLElement :=
  .mk e.Name ((e.attributes.filter (fun a => a.1 != name)) ++ [(name, value)]) e.children

/-- Library call `XMLNode::InsertEndChild`: the child becomes the last child. -/
def XMLElement.InsertEndChild (e : XMLElement) (child : XMLElement) : XMLElement :=
  .mk e.Name e.attributes (e.children ++ [child])

/-- Library call `XMLNode::FirstChildElement(name)`: the first child with that name, if any. -/
def XMLElement.FirstChildElement (e : XMLElement) (name : String) : Option XMLElement :=
  e.children.find? (fun c => c.Name == name)

/-- Library call `XMLElement::IntAttribute(name)`: the attribute read as an int, 0 when
absent. -/
def XMLElement.IntAttribute (e : XMLElement) (name : String) : Int :=
  match e.attributes.find? (fun a => a.1 == name) with
  | some a => a.2
  | none => 0

/-- Source `saveNodeToXML`, lines 39-56: the element `parent` after the call. -/
def saveNodeToXML (parent : XMLElement) : Top → XMLElement
  | .null => parent
  | .node digital_top left right =>
    let nodeElement := (NewElement "Node").SetAttribute "value" digital_top
    let leftElement := NewElement "Left"
    let leftElement := if left ≠ .null then saveNodeToXML leftElement left else leftElement
    let nodeElement := nodeElement.InsertEndChild leftElement
    let rightElement := NewElement "Right"
    let rightElement := if right ≠ .null then saveNodeToXML rightElement right else rightElement
    let nodeElement := nodeElement.InsertEndChild rightElement
    parent.InsertEndChild nodeElement

set_option linter.unusedVariables false in
/-- Source `loadNodeFromXML`, lines 58-71. -/
def loadNodeFromXML (element : Option XMLElement) : Top :=
  match element with
  | none => .null
  | some element =>
    match h : element.FirstChildElement "Node" with
    | none => .null
    | some nodeElement =>
      let digital_top := nodeElement.IntAttribute "value"
      let left :=
        match hl : nodeElement.FirstChildElement "Left" with
        | some leftElement => loadNodeFromXML (some leftElement)
        | none => .null
      let right :=
        match hr : nodeElement.FirstChildElement "Right" with
        | some rightElement => loadNodeFromXML (some rightElement)
        | none => .null
      .node digital_top left right
termination_by sizeOf element
decreasing_by
  all_goals simp_wf
  all_goals
    have key : ∀ (e c : XMLElement) (n : String),
        e.FirstChildElement n = some c → sizeOf c < sizeOf e := by
      intro e c n hc
      cases e with
      | mk en ea ec =>
        have hm : c ∈ ec := List.mem_of_find?_eq_some hc
        have := List.sizeOf_lt_of_mem hm
        simp only [XMLElement.mk.sizeOf_spec]
        omega
  · have h1 := key _ _ _ h
    have h2 := key _ _ _ hl
    omega
  · have h1 := key _ _ _ h
    have h2 := key _ _ _ hr
    omega

/-- A tinyxml2 document: its top-level elements in document order. -/
abbrev XMLDocument := List XMLElement

/-- Library call `XMLDocument::FirstChildElement(name)` on the document itself. -/
def XMLDocument.FirstChildElement (doc : XMLDocument) (name : String) : Option XMLElement :=
  doc.find? (fun c => c.Name == name)

/-- The message a call of `save` or `load` prints. -/
inductive Message where
  | saved | saveError | loadFileError | badFormat | loaded
  deriving DecidableEq

/-- Source `save`, lines 379-383: the document that is handed to `SaveFile`. -/
def saveDocument (root : Top) : XMLDocument :=
  let rootElement := NewElement "BinaryTree"
  let rootElement := if root ≠ .null then saveNodeToXML rootElement root else rootElement
  [rootElement]

/-- Source `load`, lines 392-405.  `file` is the outcome of `LoadFile`: `none`
when it does not return `XML_SUCCESS`, the parsed document otherwise.  The
result is the tree held afterwards and the message printed. -/
def load (file : Option XMLDocument) (root : Top) : Top × Message :=
  match file with
  | none => (root, .loadFileError)
  | some doc =>
    match doc.FirstChildElement "BinaryTree" with
    | none => (root, .badFormat)
    | some rootElement => (loadNodeFromXML (some rootElement), .loaded)

/-! ## Generation (source lines 27-36, 236-328) -/

/-- Which child slot of a node: `left` or `right`. -/
inductive Side where
  | left | right
  deriving DecidableEq

/-- A raw `Top*` into the tree under construction: the way from the root to
the node pointed to. -/
abbrev Path := List Side

/-- Assignment through a pointer: the tree in which the node reached by the
path has been replaced by `f` of it. -/
def Top.modify (f : Node → Node) : Top → Path → Top
  | .null, _ => .null
  | .node v l r, [] => (f ⟨v, l, r⟩).toTop
  | .node v l r, .left :: p => .node v (Top.modify f l p) r
  | .node v l r, .right :: p => .node v l (Top.modify f r p)

/-- The assignment `n.left = c` or `n.right = c`. -/
def Node.attach (s : Side) (c : Top) (n : Node) : Node :=
  match s with
  | .left => { n with left := c }
  | .right => { n with right := c }

/-- The assignment `n.digital_top = v`. -/
def Node.setValue (v : Int) (n : Node) : Node :=
  { n with digital_top := v }

/-- The node `std::make_unique<Top>()` creates: value 0, no children (constructor at
line 21). -/
def newTop : Top := .node 0 .null .null

/-- Two's-complement wrap-around of 32-bit `int` arithmetic. -/
def wrapInt (x : Int) : Int :=
  (x + 2147483648) % 4294967296 - 2147483648

/-- Source `generate_random_number`, lines 27-31.  `raw` is what the engine
delivers for this call; the distribution maps it into `[min_value, max_value]`
(`generate_random_number_mem`), and every value of the range is the image of
some `raw` (`generate_random_number_onto`): a list of `raw`s stands for an
arbitrary sequence of draws, each within the range asked for. -/
def generate_random_number (min_value max_value : Int) (raw : Nat) : Int :=
  min_value + ((raw : Int) % (max_value - min_value + 1))

set_option linter.unusedVariables false in
/-- Source `resizeRange`, lines 33-36: the new `(min, max)`. -/
def resizeRange (min max size : Int) : Int × Int :=
  (wrapInt (max + 1), wrapInt (max + wrapInt (size + 1)))

/-- The retry loop `hh_gen:` / `hh_gen2:` (lines 257-260, 269-272): draw until
the value is not in `dubl_digital`.  The result is the accepted value and the
draws not yet consumed; `none` when the supplied draws end while the loop is
still retrying. -/
def drawFresh (min_value max_value : Int) (dubl_digital : List Int) :
    List Nat → Option (Int × List Nat)
  | [] => none
  | raw :: draws =>
    let top_dig := generate_random_number min_value max_value raw
    if top_dig ∈ dubl_digital then drawFresh min_value max_value dubl_digital draws
    else some (top_dig, draws)

set_option linter.unusedVariables false in
/-- The `while` loop of `generate` (lines 252-281) and of `generateRnd` (lines
300-327).  The two loops are the same text except for the two calls
`resizeRange(min_value, max_value, 5)`, which only `generate` makes: `resize`
is that difference.  The first inner test `current_count < top_count` repeats
the loop condition and is always true.  The result is the tree held when the
loop ends, `none` when the supplied draws end first (the call is still
retrying). -/
def insertLoop (resize : Int → Int → Int × Int) (top_count : Int)
    (root : Top) (nodes_queue : List Path) (current_count : Int)
    (dubl_digital : List Int) (min_value max_value : Int) (draws : List Nat) :
    Option Top :=
  if h : current_count < top_count then
    match nodes_queue with
    | [] => some root
    | current :: nodes_queue =>
      let root := root.modify (Node.attach .left newTop) current
      match drawFresh min_value max_value dubl_digital draws with
      | none => none
      | some (top_dig, draws) =>
        let root := root.modify (Node.setValue top_dig) (current ++ [.left])
        let nodes_queue := nodes_queue ++ [current ++ [.left]]
        let current_count := current_count + 1
        let dubl_digital := top_dig :: dubl_digital
        let range := resize min_value max_value
        if current_count < top_count then
          match drawFresh range.1 range.2 dubl_digital draws with
          | none => none
          | some (top_dig, draws) =>
            let root := root.modify (Node.attach .right newTop) current
            let root := root.modify (Node.setValue top_dig) (current ++ [.right])
            let nodes_queue := nodes_queue ++ [current ++ [.right]]
            let current_count := current_count + 1
            let dubl_digital := top_dig :: dubl_digital
            let range := resize range.1 range.2
            insertLoop resize top_count root nodes_queue current_count dubl_digital
              range.1 range.2 draws
        else
          insertLoop resize top_count root nodes_queue current_count dubl_digital
            range.1 range.2 draws
  else some root
termination_by (top_count - current_count).toNat
decreasing_by
  all_goals simp_wf
  all_goals omega

set_option linter.unusedVariables false in
/-- Source `generate`, lines 236-282: the tree held after the call, given the
tree held before it and the engine's deliveries; `none` when the deliveries
end before the call does. -/
def generate (top_count : Int) (root : Top) (draws : List Nat) : Option Top :=
  let min_value : Int := 1
  let max_value : Int := 5
  if top_count < 1 then some .null
  else
    match draws with
    | [] => none
    | raw :: draws =>
      let root := newTop
      let topD := generate_random_number min_value max_value raw
      let root := root.modify (Node.setValue topD) []
      let dubl_digital := [topD]
      let range := resizeRange min_value max_value 10
      insertLoop (fun lo hi => resizeRange lo hi 5) top_count root [[]] 1 dubl_digital
        range.1 range.2 draws

set_option linter.unusedVariables false in
/-- Source `generateRnd`, lines 284-328, in the same form as `generate`. -/
def generateRnd (top_count : Int) (root : Top) (draws : List Nat) : Option Top :=
  let min_value : Int := 1
  let max_value : Int := 120000
  if top_count < 1 then some .null
  else
    match draws with
    | [] => none
    | raw :: draws =>
      let root := newTop
      let topD := generate_random_number min_value max_value raw
      let root := root.modify (Node.setValue topD) []
      let dubl_digital := [topD]
      insertLoop (fun lo hi => (lo, hi)) top_count root [[]] 1 dubl_digital
        min_value max_value draws

/-! ## Specification vocabulary -/

/-- Every node of the tree, as the subtree rooted at it, in pre-order. -/
def subtrees : Top → List Top
  | .null => []
  | .node v l r => Top.node v l r :: (subtrees l ++ subtrees r)

/-- The children a node has (its non-null child pointers). -/
def childrenOf : Top → List Top
  | .null => []
  | .node _ l r => [l, r].filter (fun c => c ≠ Top.null)

/-- The combined verdict: the condition tested at source lines 155, 190 and 216. -/
def isHeapSubtree (n : Top) : Bool :=
  (isMaxHeap n || isMinHeap n) && isCompleteBinaryTree n && isLeftLessThanRight n

/-- The numbers in use when the root of the tree is numbered `i` and the
children of the node numbered `j` are numbered `2j` (left) and `2j+1` (right). -/
def numbering : Top → Nat → List Nat
  | .null, _ => []
  | .node _ l r, i => i :: (numbering l (2 * i) ++ numbering r (2 * i + 1))

/-- The numbers in use in the trees of a queue whose entries are numbered
`s`, `s+1`, ... in queue order. -/
def queueNumbering : List Node → Nat → List Nat
  | [], _ => []
  | n :: q, s => numbering n.toTop s ++ queueNumbering q (s + 1)

/-- The nodes at depth `d` of the tree, from left to right. -/
def level : Top → Nat → List Node
  | .null, _ => []
  | .node v l r, 0 => [⟨v, l, r⟩]
  | .node _ l r, d + 1 => level l d ++ level r d

/-- The number of levels of the tree. -/
def height : Top → Nat
  | .null => 0
  | .node _ l r => 1 + max (height l) (height r)

/-- Breadth-first order: level after level, each level from left to right. -/
def bfsOrder (t : Top) : List Node :=
  (List.range (height t)).flatMap (level t)

/-- The node has no left child. -/
def Node.missingLeft (n : Node) : Bool :=
  match n.left with
  | .null => true
  | .node _ _ _ => false

/-- The node has no right child. -/
def Node.missingRight (n : Node) : Bool :=
  match n.right with
  | .null => true
  | .node _ _ _ => false

/-- The node has at least one child. -/
def Node.hasChild (n : Node) : Bool :=
  !n.missingLeft || !n.missingRight

/-- The nodes a pointer leads to: none for the null pointer, its target otherwise. -/
def Top.toNodes : Top → List Node
  | .null => []
  | .node v l r => [⟨v, l, r⟩]

/-- The children of the nodes of a list, in order (the next level). -/
def childrenNodes (q : List Node) : List Node :=
  q.flatMap (fun n => n.left.toNodes ++ n.right.toNodes)

/-- The effect of the loop body of `isCompleteBinaryTree` on `mustBeLeaf` over a
run of nodes visited in order: `none` when the function returns `false` on
one of them, the final flag otherwise. -/
def scan : List Node → Bool → Option Bool
  | [], m => some m
  | n :: q, m =>
    if n.hasChild && m then none
    else if n.missingLeft && !n.missingRight then none
    else scan q (m || n.missingLeft || n.missingRight)

/-- Levels `0 .. D-1` of the forest `q`, level after level. -/
def forestLevels : Nat → List Node → List Node
  | 0, _ => []
  | D + 1, q => q ++ forestLevels D (childrenNodes q)

/-- The tree of C3's counterexample: `1` with children `2` (left child `4`
only) and `3` (left child `5` only). -/
def skewed : Top :=
  .node 1 (.node 2 (.node 4 .null .null) .null) (.node 3 (.node 5 .null .null) .null)

/-- The node reached by the path exists and its child slot `s` is empty. -/
def Top.slotFree : Top → Path → Side → Prop
  | .null, _, _ => False
  | .node _ l _, [], .left => l = .null
  | .node _ _ r, [], .right => r = .null
  | .node _ l _, .left :: p, s => Top.slotFree l p s
  | .node _ _ r, .right :: p, s => Top.slotFree r p s

/-- The number of a child slot of the node numbered `k`. -/
def Side.childIdx (s : Side) (k : Nat) : Nat :=
  match s with
  | .left => 2 * k
  | .right => 2 * k + 1

/-- The number of the node reached by a path from the node numbered `i`. -/
def pathIdx : Nat → Path → Nat
  | i, [] => i
  | i, s :: p => pathIdx (s.childIdx i) p

/-- What holds of the tree under construction between two insertions: it has
`count` nodes, they are numbered `1 .. count`, and their values are the ones
recorded in `dubl_digital`, without repetition. -/
structure TreeInv (root : Top) (count : Nat) (used : List Int) : Prop where
  size_eq : root.size = count
  numb : ∀ k, k ∈ numbering root 1 ↔ (1 ≤ k ∧ k ≤ count)
  vals : (collectSubtreeNodes root []).Perm used
  nodup : used.Nodup

/-- What holds at the head of the insertion loop: the queue holds pointers to
the leaves numbered `j .. 2j-1` and the tree has `2j-1` nodes. -/
structure LoopInv (root : Top) (queue : List Path) (count : Nat) (used : List Int) :
    Prop where
  tree : TreeInv root count used
  leaf : ∀ q ∈ queue, root.slotFree q .left ∧ root.slotFree q .right
  idx : ∃ j : Nat, queue.map (pathIdx 1) = List.range' j j ∧ count + 1 = 2 * j

/-- The node is a leaf: it has no child. -/
def isLeaf : Top → Bool
  | .node _ .null .null => true
  | _ => false

/-- The first tree of the worked example: root 5, left 3, right 4. -/
def example534 : Top := .node 5 (.node 3 .null .null) (.node 4 .null .null)

/-- The second tree of the worked example: root 5, left 4, right 3. -/
def example543 : Top := .node 5 (.node 4 .null .null) (.node 3 .null .null)

/-! ## Printing of the subtrees (source lines 147-206, 348-360) -/

/-- The words printed after the root of a listed subtree (lines 160-168, 195). -/
inductive Label where
  | maxAndMin | maxHeap | minHeap | notHeap
  deriving DecidableEq

/-- One listed subtree: the number printed, the root value, the label and the
vertex list. -/
structure Entry where
  number : Int
  rootValue : Int
  label : Label
  vertices : List Int
  deriving DecidableEq

/-- What `printAllSubtrees` writes: the message of the empty tree, the two
headings, and the listed subtrees. -/
inductive Output where
  | emptyTree | heapHeading | nonHeapHeading
  | entry (e : Entry)
  deriving DecidableEq

/-- The label selection of `findAndPrintHeapSubtrees`, lines 160-168. -/
def heapLabel (n : Top) : Label :=
  if isMaxHeap n && isMinHeap n then .maxAndMin
  else if isMaxHeap n then .maxHeap
  else .minHeap

/-- Source `findAndPrintHeapSubtrees`, lines 147-179: the entries printed so far
and `subtree_counter` after the call, given both before it. -/
def findAndPrintHeapSubtrees : Top → List Entry × Int → List Entry × Int
  | .null, s => s
  | .node v l r, (out, subtree_counter) =>
    let node := Top.node v l r
    let isMax := isMaxHeap node
    let isMin := isMinHeap node
    let complete := isCompleteBinaryTree node
    let left_mini := isLeftLessThanRight node
    let s :=
      if (isMax || isMin) && complete && left_mini then
        let subtree_nodes := collectSubtreeNodes node []
        (out ++ [⟨subtree_counter, v, heapLabel node, subtree_nodes⟩], subtree_counter + 1)
      else
        (out, subtree_counter)
    findAndPrintHeapSubtrees r (findAndPrintHeapSubtrees l s)

/-- Source `findAndPrintNonHeapSubtrees`, lines 182-206, in the same form. -/
def findAndPrintNonHeapSubtrees : Top → List Entry × Int → List Entry × Int
  | .null, s => s
  | .node v l r, (out, subtree_counter) =>
    let node := Top.node v l r
    let isMax := isMaxHeap node
    let isMin := isMinHeap node
    let complete := isCompleteBinaryTree node
    let left_mini := isLeftLessThanRight node
    let s :=
      if !((isMax || isMin) && complete && left_mini) then
        let subtree_nodes := collectSubtreeNodes node []
        (out ++ [⟨subtree_counter, v, Label.notHeap, subtree_nodes⟩], subtree_counter + 1)
      else
        (out, subtree_counter)
    findAndPrintNonHeapSubtrees r (findAndPrintNonHeapSubtrees l s)

/-- Source `printAllSubtrees`, lines 348-360: everything written, in order. -/
def printAllSubtrees (root : Top) : List Output :=
  match root with
  | .null => [Output.emptyTree]
  | .node v l r =>
    let pyramid_counter : Int := 1
    let heap := (findAndPrintHeapSubtrees (.node v l r) ([], pyramid_counter)).1
    let non_pyramid_counter : Int := 1
    let nonHeap := (findAndPrintNonHeapSubtrees (.node v l r) ([], non_pyramid_counter)).1
    [Output.heapHeading] ++ heap.map Output.entry ++ [Output.nonHeapHeading]
      ++ nonHeap.map Output.entry

/-- The values of a subtree in pre-order: root, then left subtree, then right
subtree. -/
def preorder : Top → List Int
  | .null => []
  | .node v l r => v :: (preorder l ++ preorder r)

/-- The value at the root of a subtree (0 for the empty one). -/
def Top.value : Top → Int
  | .null => 0
  | .node v _ _ => v

/-- The report that lists the given subtrees in order, numbered consecutively
from `k`, each with its root value, its label and its values in pre-order. -/
def report (label : Top → Label) : Int → List Top → List Entry
  | _, [] => []
  | k, n :: ns => ⟨k, n.value, label n, preorder n⟩ :: report label (k + 1) ns

/-- The values of the nodes, each with the number of its node (the root is
numbered `i`, the children of the node numbered `j` are numbered `2j` and
`2j+1`): the node numbered `k` is the `k`-th node in breadth-first insertion
order. -/
def numberedValues : Top → Nat → List (Nat × Int)
  | .null, _ => []
  | .node v l r, i => (i, v) :: (numberedValues l (2 * i) ++ numberedValues r (2 * i + 1))

/-- The range from which the `k`-th inserted node of `generate` is drawn,
according to the specification: `[1,5]`, `[6,16]`, then `[17+6(k-3), 22+6(k-3)]`. -/
def claimedRange (k : Nat) : Int × Int :=
  if k = 1 then (1, 5)
  else if k = 2 then (6, 16)
  else (17 + 6 * ((k : Int) - 3), 22 + 6 * ((k : Int) - 3))

/-- The node numbered `k` holds the value that `generate_random_number` makes of
the `k`-th delivery of the engine and the `k`-th range. -/
def DrawnFrom (draws : List Nat) (k : Nat) (v : Int) : Prop :=
  ∃ raw, draws[k - 1]? = some raw ∧
    v = generate_random_number (claimedRange k).1 (claimedRange k).2 raw

/-- The range `(min_value, max_value)` from which `generate` draws the value of
the `k`-th node when no draw is retried: `(1, 5)` for the root, then what the
calls of `resizeRange` at lines 247, 266 and 279 make of it, one call per
node. -/
def rangeAt : Nat → Int × Int
  | 0 => (1, 5)
  | 1 => (1, 5)
  | 2 => resizeRange 1 5 10
  | k + 3 => resizeRange (rangeAt (k + 2)).1 (rangeAt (k + 2)).2 5

/-- Every range that `generate N` asks a draw from is a range (`min ≤ max`), so
that a draw within the range asked for exists. -/
def RangesValid (N : Int) : Prop :=
  ∀ k : Nat, 1 ≤ k → (k : Int) ≤ N → (rangeAt k).1 ≤ (rangeAt k).2

/-! ## Theorems -/

theorem mem_subtrees_node (p : Top) (v : Int) (l r : Top) :
    p ∈ subtrees (.node v l r) ↔ p = .node v l r ∨ p ∈ subtrees l ∨ p ∈ subtrees r := by
  simp [subtrees]

theorem mem_childrenOf_node (c : Top) (v : Int) (l r : Top) :
    c ∈ childrenOf (.node v l r) ↔ c ≠ .null ∧ (c = l ∨ c = r) := by
  simp [childrenOf, List.mem_filter]
  tauto

theorem isMaxHeap_iff_aux (n : Top) :
    isMaxHeap n = true ↔
      ∀ pv pl pr, Top.node pv pl pr ∈ subtrees n →
        ∀ cv cl cr, Top.node cv cl cr ∈ childrenOf (.node pv pl pr) → pv ≥ cv := by
  induction n with
  | null => simp [isMaxHeap, subtrees]
  | node v l r ihl ihr =>
    have hn : isMaxHeap (.node v l r) = true ↔
        ((∀ cv cl cr, l = .node cv cl cr → v ≥ cv) ∧ isMaxHeap l = true) ∧
        ((∀ cv cl cr, r = .node cv cl cr → v ≥ cv) ∧ isMaxHeap r = true) := by
      cases l <;> cases r <;> simp [isMaxHeap]
    rw [hn, ihl, ihr]
    constructor
    · rintro ⟨⟨h1, h2⟩, h3, h4⟩ pv pl pr hp cv cl cr hc
      rw [mem_subtrees_node] at hp
      rcases hp with hp | hp | hp
      · cases hp
        rw [mem_childrenOf_node] at hc
        rcases hc.2 with e | e
        · exact h1 _ _ _ e.symm
        · exact h3 _ _ _ e.symm
      · exact h2 _ _ _ hp _ _ _ hc
      · exact h4 _ _ _ hp _ _ _ hc
    · intro h
      refine ⟨⟨?_, ?_⟩, ?_, ?_⟩
      · intro cv cl cr e
        exact h v l r (by simp [subtrees]) cv cl cr (by simp [mem_childrenOf_node, e])
      · intro pv pl pr hp
        exact h pv pl pr (by simp [mem_subtrees_node, hp])
      · intro cv cl cr e
        exact h v l r (by simp [subtrees]) cv cl cr (by simp [mem_childrenOf_node, e])
      · intro pv pl pr hp
        exact h pv pl pr (by simp [mem_subtrees_node, hp])

theorem isMinHeap_iff_aux (n : Top) :
    isMinHeap n = true ↔
      ∀ pv pl pr, Top.node pv pl pr ∈ subtrees n →
        ∀ cv cl cr, Top.node cv cl cr ∈ childrenOf (.node pv pl pr) → pv ≤ cv := by
  induction n with
  | null => simp [isMinHeap, subtrees]
  | node v l r ihl ihr =>
    have hn : isMinHeap (.node v l r) = true ↔
        ((∀ cv cl cr, l = .node cv cl cr → v ≤ cv) ∧ isMinHeap l = true) ∧
        ((∀ cv cl cr, r = .node cv cl cr → v ≤ cv) ∧ isMinHeap r = true) := by
      cases l <;> cases r <;> simp [isMinHeap]
    rw [hn, ihl, ihr]
    constructor
    · rintro ⟨⟨h1, h2⟩, h3, h4⟩ pv pl pr hp cv cl cr hc
      rw [mem_subtrees_node] at hp
      rcases hp with hp | hp | hp
      · cases hp
        rw [mem_childrenOf_node] at hc
        rcases hc.2 with e | e
        · exact h1 _ _ _ e.symm
        · exact h3 _ _ _ e.symm
      · exact h2 _ _ _ hp _ _ _ hc
      · exact h4 _ _ _ hp _ _ _ hc
    · intro h
      refine ⟨⟨?_, ?_⟩, ?_, ?_⟩
      · intro cv cl cr e
        exact h v l r (by simp [subtrees]) cv cl cr (by simp [mem_childrenOf_node, e])
      · intro pv pl pr hp
        exact h pv pl pr (by simp [mem_subtrees_node, hp])
      · intro cv cl cr e
        exact h v l r (by simp [subtrees]) cv cl cr (by simp [mem_childrenOf_node, e])
      · intro pv pl pr hp
        exact h pv pl pr (by simp [mem_subtrees_node, hp])

theorem isLeftLessThanRight_node (v : Int) (l r : Top) :
    isLeftLessThanRight (.node v l r) = true ↔
      (∀ lv ll lr rv rl rr, l = .node lv ll lr → r = .node rv rl rr → lv < rv) ∧
      isLeftLessThanRight l = true ∧ isLeftLessThanRight r = true := by
  have hd : isLeftLessThanRight (.node v l r) =
      ((match l, r with
        | .node lv _ _, .node rv _ _ => !decide (lv ≥ rv)
        | _, _ => true) && isLeftLessThanRight l && isLeftLessThanRight r) := rfl
  rw [hd]
  cases l with
  | null => simp
  | node lv ll lr =>
    cases r with
    | null => simp
    | node rv rl rr =>
      simp only [Bool.and_eq_true, ge_iff_le, Bool.not_eq_true', decide_eq_false_iff_not,
        not_le]
      constructor
      · rintro ⟨⟨h1, h2⟩, h3⟩
        refine ⟨?_, h2, h3⟩
        intro a b c d e f e1 e2
        cases e1
        cases e2
        simpa using h1
      · rintro ⟨h1, h2, h3⟩
        exact ⟨⟨by simpa using h1 _ _ _ _ _ _ rfl rfl, h2⟩, h3⟩

theorem isLeftLessThanRight_iff_aux (n : Top) :
    isLeftLessThanRight n = true ↔
      ∀ v lv ll lr rv rl rr,
        Top.node v (.node lv ll lr) (.node rv rl rr) ∈ subtrees n → lv < rv := by
  induction n with
  | null => simp [isLeftLessThanRight, subtrees]
  | node v l r ihl ihr =>
    rw [isLeftLessThanRight_node, ihl, ihr]
    constructor
    · rintro ⟨h1, h2, h3⟩ pv lv ll lr rv rl rr hp
      rw [mem_subtrees_node] at hp
      rcases hp with hp | hp | hp
      · cases hp
        exact h1 _ _ _ _ _ _ rfl rfl
      · exact h2 _ _ _ _ _ _ _ hp
      · exact h3 _ _ _ _ _ _ _ hp
    · intro h
      refine ⟨?_, ?_, ?_⟩
      · intro lv ll lr rv rl rr e1 e2
        subst e1 e2
        exact h v lv ll lr rv rl rr (by simp [subtrees])
      · intro pv lv ll lr rv rl rr hp
        exact h pv lv ll lr rv rl rr (by simp [mem_subtrees_node, hp])
      · intro pv lv ll lr rv rl rr hp
        exact h pv lv ll lr rv rl rr (by simp [mem_subtrees_node, hp])

theorem checkHeap_notHeap_acc (t : Top) (h k : Int) :
    checkHeap_notHeap t (h, k) =
      (h + ((subtrees t).countP isHeapSubtree : Nat),
       k + ((subtrees t).countP (fun n => !isHeapSubtree n) : Nat)) := by
  induction t generalizing h k with
  | null => simp [checkHeap_notHeap, subtrees]
  | node v l r ihl ihr =>
    simp only [checkHeap_notHeap, subtrees, List.countP_cons, List.countP_append]
    by_cases hv : isHeapSubtree (.node v l r) = true
    · have hv2 := hv
      unfold isHeapSubtree at hv2
      rw [if_pos hv2, ihl, ihr]
      simp [hv]
      constructor <;> ring
    · have hv2 := hv
      unfold isHeapSubtree at hv2
      rw [if_neg hv2, ihl, ihr]
      simp [hv]
      constructor <;> ring

theorem countNodes_eq_size (t : Top) : countNodes t = (t.size : Int) := by
  induction t with
  | null => simp [countNodes, Top.size]
  | node v l r ihl ihr => simp [countNodes, Top.size, ihl, ihr]

theorem length_subtrees (t : Top) : (subtrees t).length = t.size := by
  induction t with
  | null => simp [subtrees, Top.size]
  | node v l r ihl ihr => simp [subtrees, Top.size, ihl, ihr]; omega

/-- C1: started with both counters at 0, `checkHeap_notHeap` ends with
`heap_count` the number of nodes whose subtree satisfies the combined verdict
and `nonheap_count` the number of nodes whose subtree does not; the two add up
to `countNodes`. -/
theorem checkHeap_notHeap_spec (root : Top) :
    checkHeap_notHeap root (0, 0) =
      ((((subtrees root).countP isHeapSubtree : Nat) : Int),
       (((subtrees root).countP (fun n => !isHeapSubtree n) : Nat) : Int)) ∧
    (∀ n, isHeapSubtree n = ((isMaxHeap n || isMinHeap n) && isCompleteBinaryTree n
        && isLeftLessThanRight n)) ∧
    (checkHeap_notHeap root (0, 0)).1 + (checkHeap_notHeap root (0, 0)).2
      = countNodes root := by
  refine ⟨by rw [checkHeap_notHeap_acc]; simp, fun n => rfl, ?_⟩
  rw [checkHeap_notHeap_acc, countNodes_eq_size, ← length_subtrees]
  have := List.length_eq_countP_add_countP isHeapSubtree (subtrees root)
  have h2 : List.countP (fun a => decide ¬isHeapSubtree a = true) (subtrees root)
      = List.countP (fun n => !isHeapSubtree n) (subtrees root) := by
    apply List.countP_congr
    intro x _
    simp
  rw [h2] at this
  rw [this]
  push_cast
  ring

/-- C4: `isMaxHeap n` is true exactly when every node of the subtree rooted at
`n` has a value greater than or equal to the value of each child it has; it is
true for the empty subtree. -/
theorem isMaxHeap_spec (n : Top) :
    (isMaxHeap n = true ↔
      ∀ pv pl pr, Top.node pv pl pr ∈ subtrees n →
        ∀ cv cl cr, Top.node cv cl cr ∈ childrenOf (.node pv pl pr) → pv ≥ cv) ∧
    isMaxHeap Top.null = true :=
  ⟨isMaxHeap_iff_aux n, rfl⟩

/-- C5: `isMinHeap n` is true exactly when every node of the subtree rooted at
`n` has a value less than or equal to the value of each child it has; it is
true for the empty subtree. -/
theorem isMinHeap_spec (n : Top) :
    (isMinHeap n = true ↔
      ∀ pv pl pr, Top.node pv pl pr ∈ subtrees n →
        ∀ cv cl cr, Top.node cv cl cr ∈ childrenOf (.node pv pl pr) → pv ≤ cv) ∧
    isMinHeap Top.null = true :=
  ⟨isMinHeap_iff_aux n, rfl⟩

/-- C6: `isLeftLessThanRight n` is true exactly when every node of the subtree
rooted at `n` that has both children has left-child value strictly less than
right-child value. -/
theorem isLeftLessThanRight_spec (n : Top) :
    isLeftLessThanRight n = true ↔
      ∀ v lv ll lr rv rl rr,
        Top.node v (.node lv ll lr) (.node rv rl rr) ∈ subtrees n → lv < rv :=
  isLeftLessThanRight_iff_aux n

/-! ### XML round trip -/

theorem loadNodeFromXML_some (e : XMLElement) :
    loadNodeFromXML (some e) =
      match e.FirstChildElement "Node" with
      | none => .null
      | some nodeElement =>
        .node (nodeElement.IntAttribute "value")
          (match nodeElement.FirstChildElement "Left" with
            | some leftElement => loadNodeFromXML (some leftElement)
            | none => .null)
          (match nodeElement.FirstChildElement "Right" with
            | some rightElement => loadNodeFromXML (some rightElement)
            | none => .null) := by
  rw [loadNodeFromXML]
  split
  · rename_i h; simp [h]
  · rename_i ne h
    simp only [h]
    congr 1
    · split <;> rename_i h2 <;> simp [h2]
    · split <;> rename_i h2 <;> simp [h2]

theorem FirstChildElement_InsertEndChild_of_none (p c : XMLElement) (n : String)
    (hp : p.FirstChildElement n = none) (hc : c.Name = n) :
    (p.InsertEndChild c).FirstChildElement n = some c := by
  cases p with
  | mk pn pa pc =>
    simp only [XMLElement.FirstChildElement, XMLElement.children, XMLElement.InsertEndChild]
      at hp ⊢
    rw [List.find?_append, hp]
    simp [hc]

theorem saveNodeToXML_null_guard (p : XMLElement) (t : Top) :
    (if t ≠ .null then saveNodeToXML p t else p) = saveNodeToXML p t := by
  cases t <;> simp [saveNodeToXML]

theorem Name_saveNodeToXML (p : XMLElement) (t : Top) :
    (saveNodeToXML p t).Name = p.Name := by
  cases t <;> simp [saveNodeToXML, XMLElement.InsertEndChild, XMLElement.Name]

theorem nodeElement_children (v : Int) (L R : XMLElement) :
    ((((NewElement "Node").SetAttribute "value" v).InsertEndChild L).InsertEndChild R).children
      = [L, R] := by
  simp [NewElement, XMLElement.SetAttribute, XMLElement.InsertEndChild, XMLElement.children]

theorem nodeElement_IntAttribute (v : Int) (L R : XMLElement) :
    ((((NewElement "Node").SetAttribute "value" v).InsertEndChild L).InsertEndChild
      R).IntAttribute "value" = v := by
  simp [NewElement, XMLElement.SetAttribute, XMLElement.InsertEndChild, XMLElement.IntAttribute,
    XMLElement.attributes]

theorem nodeElement_Name (v : Int) (L R : XMLElement) :
    ((((NewElement "Node").SetAttribute "value" v).InsertEndChild L).InsertEndChild R).Name
      = "Node" := by
  simp [NewElement, XMLElement.SetAttribute, XMLElement.InsertEndChild, XMLElement.Name]

theorem FirstChildElement_NewElement (n m : String) :
    (NewElement n).FirstChildElement m = none := by
  simp [NewElement, XMLElement.FirstChildElement, XMLElement.children]

theorem load_save_aux (t : Top) : ∀ (p : XMLElement), p.FirstChildElement "Node" = none →
    loadNodeFromXML (some (saveNodeToXML p t)) = t := by
  induction t with
  | null =>
    intro p hp
    rw [loadNodeFromXML_some]
    simp [saveNodeToXML, hp]
  | node v l r ihl ihr =>
    intro p hp
    rw [loadNodeFromXML_some]
    simp only [saveNodeToXML, saveNodeToXML_null_guard]
    rw [FirstChildElement_InsertEndChild_of_none _ _ _ hp (nodeElement_Name _ _ _)]
    have hL : (saveNodeToXML (NewElement "Left") l).Name = "Left" := by
      rw [Name_saveNodeToXML]; rfl
    have hR : (saveNodeToXML (NewElement "Right") r).Name = "Right" := by
      rw [Name_saveNodeToXML]; rfl
    have h1 : XMLElement.FirstChildElement
        ((((NewElement "Node").SetAttribute "value" v).InsertEndChild
          (saveNodeToXML (NewElement "Left") l)).InsertEndChild
          (saveNodeToXML (NewElement "Right") r)) "Left"
        = some (saveNodeToXML (NewElement "Left") l) := by
      rw [XMLElement.FirstChildElement, nodeElement_children]
      simp [hL]
    have h2 : XMLElement.FirstChildElement
        ((((NewElement "Node").SetAttribute "value" v).InsertEndChild
          (saveNodeToXML (NewElement "Left") l)).InsertEndChild
          (saveNodeToXML (NewElement "Right") r)) "Right"
        = some (saveNodeToXML (NewElement "Right") r) := by
      rw [XMLElement.FirstChildElement, nodeElement_children]
      have : ("Left" == "Right") = false := by decide
      simp [hL, hR, this]
    simp only [h1, h2, nodeElement_IntAttribute]
    rw [ihl _ (FirstChildElement_NewElement _ _), ihr _ (FirstChildElement_NewElement _ _)]

/-- C7: round trip.  Loading the document that `save` builds from a tree `T`
(for every `T`, in particular every non-empty one; whatever tree was held
before) succeeds and yields exactly `T`: the same shape and the same value at
every node. -/
theorem load_saveDocument (T held : Top) :
    load (some (saveDocument T)) held = (T, Message.loaded) := by
  have hn : (saveNodeToXML (NewElement "BinaryTree") T).Name = "BinaryTree" := by
    rw [Name_saveNodeToXML]; rfl
  simp only [load, saveDocument, saveNodeToXML_null_guard, XMLDocument.FirstChildElement,
    List.find?, hn, beq_self_eq_true]
  rw [load_save_aux T _ (FirstChildElement_NewElement _ _)]

/-! ### Completeness: the loop against the level-order numbering -/

theorem mem_numbering_node (j i : Nat) (v : Int) (l r : Top) :
    j ∈ numbering (.node v l r) i ↔
      j = i ∨ j ∈ numbering l (2 * i) ∨ j ∈ numbering r (2 * i + 1) := by
  simp [numbering]

theorem le_of_mem_numbering (t : Top) : ∀ (i j : Nat), j ∈ numbering t i → i ≤ j := by
  induction t with
  | null => intro i j h; simp [numbering] at h
  | node v l r ihl ihr =>
    intro i j h
    rw [mem_numbering_node] at h
    rcases h with h | h | h
    · omega
    · have := ihl _ _ h; omega
    · have := ihr _ _ h; omega

theorem queueNumbering_append (q₁ q₂ : List Node) (s : Nat) :
    queueNumbering (q₁ ++ q₂) s
      = queueNumbering q₁ s ++ queueNumbering q₂ (s + q₁.length) := by
  induction q₁ generalizing s with
  | nil => simp [queueNumbering]
  | cons n q ih =>
    have e : s + 1 + q.length = s + (q.length + 1) := by omega
    rw [List.cons_append, queueNumbering, queueNumbering, ih, List.append_assoc,
      List.length_cons, e]

theorem mem_queueNumbering_cases (q : List Node) :
    ∀ (s j : Nat), j ∈ queueNumbering q s → (s ≤ j ∧ j < s + q.length) ∨ 2 * s ≤ j := by
  induction q with
  | nil => intro s j h; simp [queueNumbering] at h
  | cons n q ih =>
    intro s j h
    simp only [queueNumbering, List.mem_append, Node.toTop, mem_numbering_node] at h
    simp only [List.length_cons]
    rcases h with (h | h | h) | h
    · left; omega
    · have := le_of_mem_numbering _ _ _ h; right; omega
    · have := le_of_mem_numbering _ _ _ h; right; omega
    · rcases ih _ _ h with h | h
      · left; omega
      · right; omega

theorem le_of_mem_queueNumbering (q : List Node) (s j : Nat)
    (h : j ∈ queueNumbering q s) : s ≤ j := by
  rcases mem_queueNumbering_cases q s j h with h | h <;> omega

theorem queueSize_cons (n : Node) (q : List Node) :
    queueSize (n :: q) = 1 + n.left.size + n.right.size + queueSize q := by
  simp [queueSize]

theorem queueSize_append (q₁ q₂ : List Node) :
    queueSize (q₁ ++ q₂) = queueSize q₁ + queueSize q₂ := by
  simp [queueSize]

theorem length_le_queueSize (q : List Node) : q.length ≤ queueSize q := by
  induction q with
  | nil => simp [queueSize]
  | cons n q ih => rw [queueSize_cons]; simp only [List.length_cons]; omega

/-- Dropping the front number `k+1` from a set of numbers that otherwise lie above it. -/
theorem numbers_shift (F F' : List Nat) (k N : Nat)
    (hmem : ∀ j, j ∈ F ↔ j = k + 1 ∨ j ∈ F') (hge : ∀ j, j ∈ F' → k + 2 ≤ j)
    (hN : k + 1 ≤ N) :
    (∀ j, j ∈ F ↔ (k + 1 ≤ j ∧ j ≤ N)) ↔ (∀ j, j ∈ F' ↔ (k + 2 ≤ j ∧ j ≤ N)) := by
  constructor
  · intro h j
    constructor
    · intro hj
      have := (h j).1 ((hmem j).2 (Or.inr hj))
      have := hge j hj
      omega
    · intro hj
      rcases (hmem j).1 ((h j).2 (by omega)) with h1 | h1
      · omega
      · exact h1
  · intro h j
    rw [hmem]
    constructor
    · rintro (h1 | h1)
      · omega
      · have := (h j).1 h1; omega
    · intro hj
      by_cases hjk : j = k + 1
      · exact Or.inl hjk
      · exact Or.inr ((h j).2 (by omega))

theorem mem_queueNumbering_cons (j s : Nat) (v : Int) (l r : Top) (q : List Node) :
    j ∈ queueNumbering (⟨v, l, r⟩ :: q) s ↔
      j = s ∨ (j ∈ numbering l (2 * s) ∨ j ∈ numbering r (2 * s + 1)) ∨
        j ∈ queueNumbering q (s + 1) := by
  rw [queueNumbering, List.mem_append, Node.toTop, mem_numbering_node]
  tauto

theorem mem_queueNumbering_snoc (j s : Nat) (n : Node) (q : List Node) :
    j ∈ queueNumbering (q ++ [n]) s ↔
      j ∈ queueNumbering q s ∨ j ∈ numbering n.toTop (s + q.length) := by
  rw [queueNumbering_append, List.mem_append]
  simp [queueNumbering]

theorem numbering_first (v : Int) (l r : Top) (k b : Nat) (hb : b ≤ 2 * k + 1) (j : Nat)
    (hj : j ∈ numbering (Node.toTop ⟨v, l, r⟩) (k + 1)) : j = k + 1 ∨ b < j := by
  rw [Node.toTop, mem_numbering_node] at hj
  rcases hj with hj | hj | hj
  · exact Or.inl hj
  · have := le_of_mem_numbering _ _ _ hj; right; omega
  · have := le_of_mem_numbering _ _ _ hj; right; omega

/-- A queue entry that has a child makes the loop fail when `mustBeLeaf` is
set, and then the numbers in use are not an initial segment either. -/
theorem numbering_gap (n : Node) (q : List Node) (k : Nat)
    (hlen : (n :: q).length ≤ k + 1)
    (hsz : (n :: q).length + 1 ≤ queueSize (n :: q))
    (hfirst : ∀ j, j ∈ numbering n.toTop (k + 1) → j = k + 1 ∨ k + (n :: q).length + 1 < j) :
    ¬ ∀ j, j ∈ queueNumbering (n :: q) (k + 1) ↔ (k + 1 ≤ j ∧ j ≤ k + queueSize (n :: q)) := by
  intro h
  have hin := (h (k + (n :: q).length + 1)).2 (by omega)
  simp only [queueNumbering, List.mem_append] at hin
  simp only [List.length_cons] at hlen hin hfirst
  rcases hin with hin | hin
  · rcases hfirst _ hin with h1 | h1 <;> omega
  · rcases mem_queueNumbering_cases _ _ _ hin with h1 | h1 <;> omega

theorem completeLoop_iff_numbering (q : List Node) (mustBeLeaf : Bool) :
    ∀ k : Nat, (if mustBeLeaf then q.length ≤ k else q.length = k + 1) →
      (completeLoop q mustBeLeaf = true ↔
        ∀ j, j ∈ queueNumbering q (k + 1) ↔ (k + 1 ≤ j ∧ j ≤ k + queueSize q)) := by
  induction q, mustBeLeaf using completeLoop.induct with
  | case1 m =>
    intro k _
    simp only [completeLoop, queueNumbering, queueSize, List.map_nil, List.sum_nil, true_iff]
    intro j
    simp
    omega
  | case2 v q lv ll lr rv rl rr =>
    intro k hm
    simp only [if_true] at hm
    rw [completeLoop.eq_2]
    simp only [if_true, Bool.false_eq_true, false_iff]
    apply numbering_gap
    · omega
    · have := length_le_queueSize q
      rw [queueSize_cons]
      simp only [List.length_cons, Top.size]
      omega
    · intro j hj
      simp only [List.length_cons] at hm ⊢
      exact numbering_first _ _ _ _ _ (by omega) j hj
  | case3 m v q lv ll lr rv rl rr hmf ih =>
    intro k hm
    have hmf' : m = false := by simpa using hmf
    subst hmf'
    simp only [Bool.false_eq_true, if_false, List.length_cons] at hm
    have hq : q.length = k := by omega
    rw [completeLoop.eq_2]
    simp only [Bool.false_eq_true, if_false]
    rw [ih (k + 1) (by simp [hq])]
    symm
    have hsz : k + queueSize (⟨v, .node lv ll lr, .node rv rl rr⟩ :: q)
        = k + 1 + queueSize (q ++ [⟨lv, ll, lr⟩] ++ [⟨rv, rl, rr⟩]) := by
      simp only [queueSize_cons, queueSize_append, Top.size]
      simp [queueSize]
      omega
    rw [hsz]
    apply numbers_shift
    · intro j
      have e1 : k + 1 + 1 + k = 2 * (k + 1) := by omega
      have e2 : k + 1 + 1 + (k + 1) = 2 * (k + 1) + 1 := by omega
      rw [mem_queueNumbering_cons, mem_queueNumbering_snoc, mem_queueNumbering_snoc,
        List.length_append, List.length_singleton, hq, e1, e2]
      simp only [Node.toTop]
      tauto
    · intro j hj
      exact le_of_mem_queueNumbering _ _ _ hj
    · omega
  | case4 v q lv ll lr =>
    intro k hm
    simp only [if_true] at hm
    rw [completeLoop.eq_3]
    simp only [if_true, Bool.false_eq_true, false_iff]
    apply numbering_gap
    · omega
    · have := length_le_queueSize q
      rw [queueSize_cons]
      simp only [List.length_cons, Top.size]
      omega
    · intro j hj
      simp only [List.length_cons] at hm ⊢
      exact numbering_first _ _ _ _ _ (by omega) j hj
  | case5 m v q lv ll lr hmf ih =>
    intro k hm
    have hmf' : m = false := by simpa using hmf
    subst hmf'
    simp only [Bool.false_eq_true, if_false, List.length_cons] at hm
    have hq : q.length = k := by omega
    rw [completeLoop.eq_3]
    simp only [Bool.false_eq_true, if_false]
    rw [ih (k + 1) (by simp [hq])]
    symm
    have hsz : k + queueSize (⟨v, .node lv ll lr, .null⟩ :: q)
        = k + 1 + queueSize (q ++ [⟨lv, ll, lr⟩]) := by
      simp only [queueSize_cons, queueSize_append, Top.size]
      simp [queueSize]
      omega
    rw [hsz]
    apply numbers_shift
    · intro j
      have e1 : k + 1 + 1 + k = 2 * (k + 1) := by omega
      rw [mem_queueNumbering_cons, mem_queueNumbering_snoc, hq, e1]
      simp only [Node.toTop, numbering, List.not_mem_nil, or_false]
      tauto
    · intro j hj
      exact le_of_mem_queueNumbering _ _ _ hj
    · omega
  | case6 m v q rv rl rr =>
    intro k hm
    rw [completeLoop.eq_4]
    simp only [Bool.false_eq_true, false_iff]
    apply numbering_gap
    · cases m <;> simp at hm <;> simp <;> omega
    · have := length_le_queueSize q
      rw [queueSize_cons]
      simp only [List.length_cons, Top.size]
      omega
    · intro j hj
      have hlen : (({ digital_top := v, left := Top.null, right := Top.node rv rl rr } :: q)
          : List Node).length ≤ k + 1 := by
        cases m <;> simp at hm <;> simp <;> omega
      simp only [List.length_cons] at hlen ⊢
      rw [Node.toTop, mem_numbering_node] at hj
      rcases hj with hj | hj | hj
      · exact Or.inl hj
      · simp [numbering] at hj
      · have := le_of_mem_numbering _ _ _ hj; right; omega
  | case7 m v q ih =>
    intro k hm
    rw [completeLoop.eq_5]
    rw [ih (k + 1) (by cases m <;> simp at hm <;> simp <;> omega)]
    symm
    have hsz : k + queueSize (⟨v, .null, .null⟩ :: q) = k + 1 + queueSize q := by
      simp only [queueSize_cons, Top.size]
      omega
    rw [hsz]
    apply numbers_shift
    · intro j
      rw [mem_queueNumbering_cons]
      simp only [numbering, List.not_mem_nil, or_false, false_or]
    · intro j hj
      exact le_of_mem_queueNumbering _ _ _ hj
    · omega

theorem isCompleteBinaryTree_iff_numbering (t : Top) :
    isCompleteBinaryTree t = true ↔
      ∀ j, j ∈ numbering t 1 ↔ (1 ≤ j ∧ j ≤ t.size) := by
  cases t with
  | null => simp [isCompleteBinaryTree, numbering, Top.size]; intro j; omega
  | node v l r =>
    rw [isCompleteBinaryTree, completeLoop_iff_numbering _ _ 0 (by simp)]
    simp [queueNumbering, Node.toTop, queueSize, Top.size]

/-! ### Completeness: the loop against breadth-first order -/

theorem completeLoop_append (q : List Node) :
    ∀ (acc : List Node) (m : Bool),
      completeLoop (q ++ acc) m =
        match scan q m with
        | none => false
        | some m' => completeLoop (acc ++ childrenNodes q) m' := by
  induction q with
  | nil => intro acc m; simp [scan, childrenNodes]
  | cons n q ih =>
    intro acc m
    obtain ⟨v, l, r⟩ := n
    cases l with
    | null =>
      cases r with
      | null =>
        rw [List.cons_append, completeLoop.eq_5, ih]
        simp [scan, Node.hasChild, Node.missingLeft, Node.missingRight, childrenNodes,
          Top.toNodes]
      | node rv rl rr =>
        rw [List.cons_append, completeLoop.eq_4]
        cases m <;> simp [scan, Node.hasChild, Node.missingLeft, Node.missingRight]
    | node lv ll lr =>
      cases r with
      | null =>
        rw [List.cons_append, completeLoop.eq_3]
        cases m with
        | true => simp [scan, Node.hasChild, Node.missingLeft, Node.missingRight]
        | false =>
          simp only [Bool.false_eq_true, if_false]
          rw [List.append_assoc, ih]
          simp [scan, Node.hasChild, Node.missingLeft, Node.missingRight, childrenNodes,
            Top.toNodes]
      | node rv rl rr =>
        rw [List.cons_append, completeLoop.eq_2]
        cases m with
        | true => simp [scan, Node.hasChild, Node.missingLeft, Node.missingRight]
        | false =>
          simp only [Bool.false_eq_true, if_false]
          rw [List.append_assoc, List.append_assoc, ih]
          simp [scan, Node.hasChild, Node.missingLeft, Node.missingRight, childrenNodes,
            Top.toNodes]

theorem scan_append (q₁ q₂ : List Node) (m : Bool) :
    scan (q₁ ++ q₂) m = (scan q₁ m).bind (scan q₂) := by
  induction q₁ generalizing m with
  | nil => simp [scan]
  | cons n q ih =>
    simp only [List.cons_append, scan]
    split
    · simp
    · split
      · simp
      · exact ih _

theorem height_toNodes_le (t : Top) (n : Node) (h : n ∈ t.toNodes) :
    height n.toTop = height t := by
  cases t with
  | null => simp [Top.toNodes] at h
  | node v l r =>
    simp only [Top.toNodes, List.mem_singleton] at h
    subst h
    rfl

theorem height_childrenNodes (q : List Node) (D : Nat)
    (h : ∀ n ∈ q, height n.toTop ≤ D + 1) :
    ∀ n ∈ childrenNodes q, height n.toTop ≤ D := by
  intro c hc
  simp only [childrenNodes, List.mem_flatMap, List.mem_append] at hc
  obtain ⟨n, hn, hc⟩ := hc
  have := h n hn
  obtain ⟨v, l, r⟩ := n
  simp only [Node.toTop, height] at this
  rcases hc with hc | hc
  · rw [height_toNodes_le _ _ hc]
    simp only at this ⊢
    omega
  · rw [height_toNodes_le _ _ hc]
    simp only at this ⊢
    omega

theorem completeLoop_eq_scan (D : Nat) :
    ∀ (q : List Node) (m : Bool), (∀ n ∈ q, height n.toTop ≤ D) →
      completeLoop q m = (scan (forestLevels D q) m).isSome := by
  induction D with
  | zero =>
    intro q m h
    cases q with
    | nil => simp [completeLoop, forestLevels, scan]
    | cons n q =>
      have := h n (List.mem_cons_self _ _)
      obtain ⟨v, l, r⟩ := n
      simp [Node.toTop, height] at this
  | succ D ih =>
    intro q m h
    have h1 := completeLoop_append q [] m
    simp only [List.append_nil, List.nil_append] at h1
    rw [h1, forestLevels, scan_append]
    cases hs : scan q m with
    | none => simp
    | some m' =>
      simp only [Option.some_bind]
      exact ih _ _ (height_childrenNodes q D h)

theorem level_zero_toTop (n : Node) : level n.toTop 0 = [n] := by
  obtain ⟨v, l, r⟩ := n
  rfl

theorem flatMap_level_toNodes (t : Top) (d : Nat) :
    t.toNodes.flatMap (fun n => level n.toTop d) = level t d := by
  cases t with
  | null => simp [Top.toNodes, level]
  | node v l r => simp [Top.toNodes, Node.toTop]

theorem flatMap_level_childrenNodes (q : List Node) (d : Nat) :
    (childrenNodes q).flatMap (fun n => level n.toTop d)
      = q.flatMap (fun n => level n.toTop (d + 1)) := by
  induction q with
  | nil => simp [childrenNodes]
  | cons n q ih =>
    have hc : childrenNodes (n :: q)
        = (n.left.toNodes ++ n.right.toNodes) ++ childrenNodes q := by
      simp [childrenNodes]
    rw [hc, List.flatMap_append, List.flatMap_append, ih, flatMap_level_toNodes,
      flatMap_level_toNodes, List.flatMap_cons]
    obtain ⟨v, l, r⟩ := n
    rfl

theorem forestLevels_eq (D : Nat) : ∀ q : List Node,
    forestLevels D q
      = (List.range D).flatMap (fun d => q.flatMap (fun n => level n.toTop d)) := by
  induction D with
  | zero => intro q; simp [forestLevels]
  | succ D ih =>
    intro q
    rw [forestLevels, ih, List.range_succ_eq_map, List.flatMap_cons, List.flatMap_map]
    congr 1
    · simp [level_zero_toTop]
    · simp only [flatMap_level_childrenNodes]

theorem bfsOrder_eq_forestLevels (v : Int) (l r : Top) :
    bfsOrder (.node v l r) = forestLevels (height (.node v l r)) [⟨v, l, r⟩] := by
  rw [forestLevels_eq, bfsOrder]
  simp [Node.toTop]

theorem isCompleteBinaryTree_eq_scan (t : Top) :
    isCompleteBinaryTree t = (scan (bfsOrder t) false).isSome := by
  cases t with
  | null => simp [isCompleteBinaryTree, bfsOrder, height, scan]
  | node v l r =>
    rw [bfsOrder_eq_forestLevels, isCompleteBinaryTree]
    apply completeLoop_eq_scan
    intro n hn
    simp only [List.mem_singleton] at hn
    subst hn
    exact le_refl _

theorem scan_cons_isSome (n : Node) (L : List Node) (m : Bool) :
    (scan (n :: L) m).isSome = true ↔
      ¬ (n.hasChild = true ∧ m = true) ∧
      ¬ (n.missingLeft = true ∧ ¬ n.missingRight = true) ∧
      (scan L (m || n.missingLeft || n.missingRight)).isSome = true := by
  rw [scan]
  split_ifs with h1 h2 <;> simp_all

theorem scan_isSome_iff (L : List Node) : ∀ m : Bool,
    (scan L m).isSome = true ↔
      (m = true → ∀ b ∈ L, b.hasChild = false) ∧
      L.Pairwise (fun a b =>
        ¬ ((a.missingLeft = true ∨ a.missingRight = true) ∧ b.hasChild = true)) ∧
      ∀ a ∈ L, ¬ (a.missingLeft = true ∧ a.missingRight = false) := by
  induction L with
  | nil => intro m; simp [scan]
  | cons n L ih =>
    intro m
    have hmid : (∀ a' ∈ L, ¬ ((n.missingLeft = true ∨ n.missingRight = true) ∧
          a'.hasChild = true)) ↔
        ((n.missingLeft = true ∨ n.missingRight = true) → ∀ b ∈ L, b.hasChild = false) := by
      constructor
      · intro h hc b hb
        have := h b hb
        cases hb' : b.hasChild
        · rfl
        · exact absurd ⟨hc, hb'⟩ this
      · intro h a ha hh
        have := h hh.1 a ha
        rw [this] at hh
        exact Bool.false_ne_true hh.2
    have hc1 : n.hasChild = true ↔ (¬ n.missingLeft = true ∨ ¬ n.missingRight = true) := by
      simp [Node.hasChild]
    have hc2 : n.hasChild = false ↔ (n.missingLeft = true ∧ n.missingRight = true) := by
      simp [Node.hasChild]
    have hm : (m || n.missingLeft || n.missingRight) = true ↔
        (m = true ∨ n.missingLeft = true ∨ n.missingRight = true) := by
      simp [or_assoc]
    have hf : n.missingRight = false ↔ ¬ n.missingRight = true := by simp
    rw [scan_cons_isSome, ih, hm, hc1]
    simp only [List.pairwise_cons, List.mem_cons, forall_eq_or_imp, hmid, hc2, hf]
    generalize (∀ b ∈ L, b.hasChild = false) = P
    generalize (List.Pairwise (fun a b =>
        ¬ ((a.missingLeft = true ∨ a.missingRight = true) ∧ b.hasChild = true)) L) = R
    generalize (∀ a ∈ L, ¬ (a.missingLeft = true ∧ a.missingRight = false)) = Q
    clear ih hmid hc1 hc2 hm hf
    generalize (m = true) = A
    generalize (n.missingLeft = true) = B
    generalize (n.missingRight = true) = C
    tauto

theorem isCompleteBinaryTree_iff_bfs (n : Top) :
    isCompleteBinaryTree n = true ↔
      (bfsOrder n).Pairwise (fun a b =>
        ¬ ((a.missingLeft = true ∨ a.missingRight = true) ∧ b.hasChild = true)) ∧
      ∀ a ∈ bfsOrder n, ¬ (a.missingLeft = true ∧ a.missingRight = false) := by
  rw [isCompleteBinaryTree_eq_scan, scan_isSome_iff]
  simp

/-- C2: `isCompleteBinaryTree root` is true exactly when the tree is complete:
numbering the root 1 and the children of node `i` as `2i` and `2i+1`, the
numbers in use are exactly `1 .. countNodes root`. -/
theorem isCompleteBinaryTree_spec (root : Top) :
    isCompleteBinaryTree root = true ↔
      ∀ j : Nat, j ∈ numbering root 1 ↔ (1 ≤ j ∧ (j : Int) ≤ countNodes root) := by
  rw [isCompleteBinaryTree_iff_numbering]
  simp only [countNodes_eq_size, Nat.cast_le]

/-- C3 as stated fails.  In `skewed` the breadth-first order is 1, 2, 3, 4, 5; the
only nodes with a missing left child are the leaves 4 and 5, and no node after
them has a child, so the stated condition holds; yet `isCompleteBinaryTree`
returns `false`, because node 2 misses its right child and node 3 after it has
a child. -/
theorem isCompleteBinaryTree_missingLeft_counterexample :
    ¬ (isCompleteBinaryTree skewed = true ↔
        (bfsOrder skewed).Pairwise (fun a b =>
          ¬ (a.missingLeft = true ∧ b.hasChild = true))) := by
  have h1 : isCompleteBinaryTree skewed = false := by
    simp [skewed, isCompleteBinaryTree, completeLoop]
  have h2 : (bfsOrder skewed).Pairwise (fun a b =>
      ¬ (a.missingLeft = true ∧ b.hasChild = true)) := by
    decide
  intro h
  have h3 := h.2 h2
  rw [h1] at h3
  exact Bool.false_ne_true h3

/-- C3, amended: `isCompleteBinaryTree n` is true exactly when, in the
breadth-first order of the subtree rooted at `n`, no node with a missing child
(left or right) is followed by a node that has a child, and no node has a
right child without a left child. -/
theorem isCompleteBinaryTree_bfs_spec (n : Top) :
    isCompleteBinaryTree n = true ↔
      (bfsOrder n).Pairwise (fun a b =>
        ¬ ((a.missingLeft = true ∨ a.missingRight = true) ∧ b.hasChild = true)) ∧
      ∀ a ∈ bfsOrder n, ¬ (a.missingLeft = true ∧ a.missingRight = false) :=
  isCompleteBinaryTree_iff_bfs n

/-! ### Generation: assignments through pointers -/

theorem modify_attach_setValue (s : Side) (v : Int) (t : Top) : ∀ p : Path,
    (t.modify (Node.attach s newTop) p).modify (Node.setValue v) (p ++ [s])
      = t.modify (Node.attach s (.node v .null .null)) p := by
  induction t with
  | null => intro p; simp [Top.modify]
  | node w l r ihl ihr =>
    intro p
    cases p with
    | nil =>
      cases s <;>
        simp [Top.modify, Node.attach, Node.toTop, newTop, Node.setValue]
    | cons d p =>
      cases d
      · simp [Top.modify, ihl]
      · simp [Top.modify, ihr]

theorem size_modify_attach (s : Side) (c : Top) (t : Top) : ∀ p : Path,
    t.slotFree p s → (t.modify (Node.attach s c) p).size = t.size + c.size := by
  induction t with
  | null => intro p h; simp [Top.slotFree] at h
  | node w l r ihl ihr =>
    intro p h
    cases p with
    | nil =>
      cases s
      · simp only [Top.slotFree] at h
        subst h
        simp [Top.modify, Node.attach, Node.toTop, Top.size]
        omega
      · simp only [Top.slotFree] at h
        subst h
        simp [Top.modify, Node.attach, Node.toTop, Top.size]
    | cons d p =>
      cases d
      · simp only [Top.slotFree] at h
        simp only [Top.modify, Top.size, ihl p h]
        omega
      · simp only [Top.slotFree] at h
        simp only [Top.modify, Top.size, ihr p h]
        omega

theorem slotFree_modify_same (s s' : Side) (c : Top) (hs : s ≠ s') (t : Top) : ∀ p : Path,
    t.slotFree p s' → (t.modify (Node.attach s c) p).slotFree p s' := by
  induction t with
  | null => intro p h; simp [Top.slotFree] at h
  | node w l r ihl ihr =>
    intro p h
    cases p with
    | nil =>
      cases s <;> cases s' <;>
        simp_all [Top.slotFree, Top.modify, Node.attach, Node.toTop]
    | cons d p =>
      cases d
      · simp only [Top.slotFree] at h
        simp only [Top.modify, Top.slotFree]
        exact ihl p h
      · simp only [Top.slotFree] at h
        simp only [Top.modify, Top.slotFree]
        exact ihr p h

theorem slotFree_modify_new (s s' : Side) (v : Int) (t : Top) : ∀ p : Path,
    t.slotFree p s →
      (t.modify (Node.attach s (.node v .null .null)) p).slotFree (p ++ [s]) s' := by
  induction t with
  | null => intro p h; simp [Top.slotFree] at h
  | node w l r ihl ihr =>
    intro p h
    cases p with
    | nil =>
      cases s <;> cases s' <;>
        simp [Top.slotFree, Top.modify, Node.attach, Node.toTop]
    | cons d p =>
      cases d
      · simp only [Top.slotFree] at h
        simp only [Top.modify, Top.slotFree, List.cons_append]
        exact ihl p h
      · simp only [Top.slotFree] at h
        simp only [Top.modify, Top.slotFree, List.cons_append]
        exact ihr p h

theorem slotFree_modify_other (s s' : Side) (c : Top) (t : Top) : ∀ p q : Path,
    t.slotFree p s → t.slotFree q .left → t.slotFree q .right → q ≠ p →
      (t.modify (Node.attach s c) p).slotFree q s' := by
  induction t with
  | null => intro p q h; simp [Top.slotFree] at h
  | node w l r ihl ihr =>
    intro p q hp hql hqr hne
    cases p with
    | nil =>
      cases q with
      | nil => exact absurd rfl hne
      | cons e q =>
        cases s <;> cases e <;>
          simp_all [Top.slotFree, Top.modify, Node.attach, Node.toTop] <;>
          cases s' <;> assumption
    | cons d p =>
      cases q with
      | nil =>
        simp only [Top.slotFree] at hql hqr
        subst hql hqr
        cases d <;> simp [Top.slotFree] at hp
      | cons e q =>
        cases d <;> cases e
        · simp only [Top.slotFree] at hp hql hqr
          simp only [Top.modify, Top.slotFree]
          exact ihl p q hp hql hqr (by simpa using hne)
        · simp only [Top.slotFree] at hp hql hqr
          simp only [Top.modify, Top.slotFree]
          cases s' <;> assumption
        · simp only [Top.slotFree] at hp hql hqr
          simp only [Top.modify, Top.slotFree]
          cases s' <;> assumption
        · simp only [Top.slotFree] at hp hql hqr
          simp only [Top.modify, Top.slotFree]
          exact ihr p q hp hql hqr (by simpa using hne)

theorem pathIdx_append (p : Path) (s : Side) : ∀ i : Nat,
    pathIdx i (p ++ [s]) = s.childIdx (pathIdx i p) := by
  induction p with
  | nil => intro i; simp [pathIdx]
  | cons d p ih => intro i; simp [pathIdx, ih]

theorem mem_numbering_modify (s : Side) (v : Int) (j : Nat) (t : Top) : ∀ (p : Path) (i : Nat),
    t.slotFree p s →
      (j ∈ numbering (t.modify (Node.attach s (.node v .null .null)) p) i ↔
        j ∈ numbering t i ∨ j = s.childIdx (pathIdx i p)) := by
  induction t with
  | null => intro p i h; simp [Top.slotFree] at h
  | node w l r ihl ihr =>
    intro p i h
    cases p with
    | nil =>
      cases s
      · simp only [Top.slotFree] at h
        subst h
        simp [Top.modify, Node.attach, Node.toTop, numbering, pathIdx, Side.childIdx]
        tauto
      · simp only [Top.slotFree] at h
        subst h
        simp [Top.modify, Node.attach, Node.toTop, numbering, pathIdx, Side.childIdx]
        tauto
    | cons d p =>
      cases d
      · simp only [Top.slotFree] at h
        simp only [Top.modify, mem_numbering_node, ihl p _ h, pathIdx, Side.childIdx]
        tauto
      · simp only [Top.slotFree] at h
        simp only [Top.modify, mem_numbering_node, ihr p _ h, pathIdx, Side.childIdx]
        tauto

theorem collectSubtreeNodes_acc (t : Top) : ∀ acc : List Int,
    collectSubtreeNodes t acc = acc ++ collectSubtreeNodes t [] := by
  induction t with
  | null => intro acc; simp [collectSubtreeNodes]
  | node v l r ihl ihr =>
    intro acc
    simp only [collectSubtreeNodes]
    rw [ihr, ihl, ihr (collectSubtreeNodes l ([] ++ [v])), ihl ([] ++ [v])]
    simp

theorem collectSubtreeNodes_node (v : Int) (l r : Top) :
    collectSubtreeNodes (.node v l r) []
      = v :: (collectSubtreeNodes l [] ++ collectSubtreeNodes r []) := by
  simp only [collectSubtreeNodes]
  rw [collectSubtreeNodes_acc r, collectSubtreeNodes_acc l]
  simp

theorem collect_modify_perm (s : Side) (v : Int) (t : Top) : ∀ p : Path,
    t.slotFree p s →
      (collectSubtreeNodes (t.modify (Node.attach s (.node v .null .null)) p) []).Perm
        (v :: collectSubtreeNodes t []) := by
  induction t with
  | null => intro p h; simp [Top.slotFree] at h
  | node w l r ihl ihr =>
    intro p h
    cases p with
    | nil =>
      cases s
      · simp only [Top.slotFree] at h
        subst h
        simp only [Top.modify, Node.attach, Node.toTop, collectSubtreeNodes_node]
        simp [collectSubtreeNodes]
        exact List.Perm.swap _ _ _
      · simp only [Top.slotFree] at h
        subst h
        simp only [Top.modify, Node.attach, Node.toTop, collectSubtreeNodes_node]
        simp [collectSubtreeNodes]
        have : (w :: (collectSubtreeNodes l [] ++ [v])).Perm
            (w :: v :: collectSubtreeNodes l []) := by
          apply List.Perm.cons
          simp
        exact this.trans (List.Perm.swap _ _ _)
    | cons d p =>
      cases d
      · simp only [Top.slotFree] at h
        simp only [Top.modify, collectSubtreeNodes_node]
        have h1 := ihl p h
        have h2 : (w :: (collectSubtreeNodes
            (Top.modify (Node.attach s (.node v .null .null)) l p) [] ++
              collectSubtreeNodes r [])).Perm
            (w :: ((v :: collectSubtreeNodes l []) ++ collectSubtreeNodes r [])) :=
          List.Perm.cons _ (List.Perm.append_right _ h1)
        exact h2.trans (List.Perm.swap _ _ _)
      · simp only [Top.slotFree] at h
        simp only [Top.modify, collectSubtreeNodes_node]
        have h1 := ihr p h
        have h2 : (w :: (collectSubtreeNodes l [] ++ collectSubtreeNodes
            (Top.modify (Node.attach s (.node v .null .null)) r p) [])).Perm
            (w :: (collectSubtreeNodes l [] ++ (v :: collectSubtreeNodes r []))) :=
          List.Perm.cons _ (List.Perm.append_left _ h1)
        have h3 : (w :: (collectSubtreeNodes l [] ++ (v :: collectSubtreeNodes r []))).Perm
            (w :: v :: (collectSubtreeNodes l [] ++ collectSubtreeNodes r [])) :=
          List.Perm.cons _ List.perm_middle
        exact (h2.trans h3).trans (List.Perm.swap _ _ _)

/-! ### Generation: one round of the insertion loop -/

theorem insertLoop_done (resize : Int → Int → Int × Int) (N : Int) (root : Top)
    (queue : List Path) (c : Int) (used : List Int) (lo hi : Int) (draws : List Nat)
    (h : ¬ c < N) :
    insertLoop resize N root queue c used lo hi draws = some root := by
  rw [insertLoop.eq_def]
  simp [h]

theorem insertLoop_step (resize : Int → Int → Int × Int) (N : Int) (root : Top)
    (p : Path) (queue : List Path) (c : Int) (used : List Int) (lo hi : Int)
    (draws : List Nat) (h : c < N) :
    insertLoop resize N root (p :: queue) c used lo hi draws =
      match drawFresh lo hi used draws with
      | none => none
      | some (v₁, d₁) =>
        if c + 1 < N then
          match drawFresh (resize lo hi).1 (resize lo hi).2 (v₁ :: used) d₁ with
          | none => none
          | some (v₂, d₂) =>
            insertLoop resize N
              ((root.modify (Node.attach .left (.node v₁ .null .null)) p).modify
                (Node.attach .right (.node v₂ .null .null)) p)
              (queue ++ [p ++ [.left]] ++ [p ++ [.right]]) (c + 1 + 1)
              (v₂ :: v₁ :: used)
              (resize (resize lo hi).1 (resize lo hi).2).1
              (resize (resize lo hi).1 (resize lo hi).2).2 d₂
        else some (root.modify (Node.attach .left (.node v₁ .null .null)) p) := by
  rw [insertLoop.eq_def]
  simp only [h, dite_true]
  cases h1 : drawFresh lo hi used draws with
  | none => rfl
  | some r =>
    obtain ⟨v₁, d₁⟩ := r
    simp only [modify_attach_setValue]
    by_cases h2 : c + 1 < N
    · simp only [h2, if_true]
    · simp only [h2, if_false]
      exact insertLoop_done _ _ _ _ _ _ _ _ _ h2

theorem drawFresh_not_mem (lo hi : Int) (used : List Int) : ∀ (draws : List Nat) (v : Int)
    (d : List Nat), drawFresh lo hi used draws = some (v, d) → v ∉ used := by
  intro draws
  induction draws with
  | nil => intro v d h; simp [drawFresh] at h
  | cons raw draws ih =>
    intro v d h
    simp only [drawFresh] at h
    split_ifs at h with hm
    · exact ih v d h
    · simp only [Option.some.injEq, Prod.mk.injEq] at h
      rw [← h.1]
      exact hm

theorem TreeInv.insert {root : Top} {count : Nat} {used : List Int} (h : TreeInv root count used)
    (p : Path) (s : Side) (v : Int) (hp : root.slotFree p s)
    (hidx : s.childIdx (pathIdx 1 p) = count + 1) (hv : v ∉ used) :
    TreeInv (root.modify (Node.attach s (.node v .null .null)) p) (count + 1) (v :: used) where
  size_eq := by
    rw [size_modify_attach s _ root p hp, h.size_eq]
    simp [Top.size]
  numb := by
    intro k
    rw [mem_numbering_modify s v k root p 1 hp, h.numb, hidx]
    omega
  vals := (collect_modify_perm s v root p hp).trans (List.Perm.cons v h.vals)
  nodup := List.nodup_cons.2 ⟨hv, h.nodup⟩

theorem TreeInv.singleNode (v : Int) : TreeInv (.node v .null .null) 1 [v] where
  size_eq := by simp [Top.size]
  numb := by
    intro k
    simp [numbering]
    omega
  vals := by simp [collectSubtreeNodes]
  nodup := by simp

theorem LoopInv.initial (v : Int) : LoopInv (.node v .null .null) [[]] 1 [v] where
  tree := TreeInv.singleNode v
  leaf := by
    intro q hq
    simp only [List.mem_singleton] at hq
    subst hq
    simp [Top.slotFree]
  idx := ⟨1, by simp [pathIdx], by norm_num⟩

theorem LoopInv.front {root : Top} {p : Path} {rest : List Path} {count : Nat}
    {used : List Int} (h : LoopInv root (p :: rest) count used) :
    ∃ j : Nat, pathIdx 1 p = j + 1 ∧ rest.map (pathIdx 1) = List.range' (j + 2) j ∧
      count = 2 * j + 1 ∧ p ∉ rest := by
  obtain ⟨j, hj, hc⟩ := h.idx
  cases j with
  | zero => simp at hj
  | succ j =>
    rw [List.range'_succ, List.map_cons, List.cons.injEq] at hj
    refine ⟨j, hj.1, by simpa using hj.2, by omega, ?_⟩
    intro hmem
    have : pathIdx 1 p ∈ rest.map (pathIdx 1) := List.mem_map_of_mem _ hmem
    rw [hj.2, hj.1, List.mem_range'_1] at this
    omega

theorem LoopInv.step_left {root : Top} {p : Path} {rest : List Path} {count : Nat}
    {used : List Int} (h : LoopInv root (p :: rest) count used) (v : Int) (hv : v ∉ used) :
    TreeInv (root.modify (Node.attach .left (.node v .null .null)) p) (count + 1) (v :: used) ∧
    (∀ q ∈ rest ++ [p ++ [.left]],
      (root.modify (Node.attach .left (.node v .null .null)) p).slotFree q .left ∧
      (root.modify (Node.attach .left (.node v .null .null)) p).slotFree q .right) ∧
    (root.modify (Node.attach .left (.node v .null .null)) p).slotFree p .right := by
  obtain ⟨j, hp, hrest, hc, hnot⟩ := h.front
  have hleaf := h.leaf p (List.mem_cons_self _ _)
  refine ⟨h.tree.insert p .left v hleaf.1 ?_ hv, ?_, ?_⟩
  · simp only [Side.childIdx, hp]
    omega
  · intro q hq
    rw [List.mem_append, List.mem_singleton] at hq
    rcases hq with hq | hq
    · have hql := h.leaf q (List.mem_cons_of_mem _ hq)
      have hne : q ≠ p := fun e => hnot (e ▸ hq)
      exact ⟨slotFree_modify_other _ _ _ _ _ _ hleaf.1 hql.1 hql.2 hne,
        slotFree_modify_other _ _ _ _ _ _ hleaf.1 hql.1 hql.2 hne⟩
    · subst hq
      exact ⟨slotFree_modify_new _ _ _ _ _ hleaf.1, slotFree_modify_new _ _ _ _ _ hleaf.1⟩
  · exact slotFree_modify_same _ _ _ (by decide) _ _ hleaf.2

theorem LoopInv.step {root : Top} {p : Path} {rest : List Path} {count : Nat}
    {used : List Int} (h : LoopInv root (p :: rest) count used) (v₁ v₂ : Int)
    (hv₁ : v₁ ∉ used) (hv₂ : v₂ ∉ v₁ :: used) :
    LoopInv
      ((root.modify (Node.attach .left (.node v₁ .null .null)) p).modify
        (Node.attach .right (.node v₂ .null .null)) p)
      (rest ++ [p ++ [.left]] ++ [p ++ [.right]]) (count + 1 + 1) (v₂ :: v₁ :: used) := by
  obtain ⟨j, hp, hrest, hc, hnot⟩ := h.front
  obtain ⟨ht, hq, hr⟩ := h.step_left v₁ hv₁
  refine ⟨ht.insert p .right v₂ hr ?_ hv₂, ?_, ?_⟩
  · simp only [Side.childIdx, hp]
    omega
  · intro q hmem
    rw [List.mem_append, List.mem_singleton] at hmem
    rcases hmem with hmem | hmem
    · have hql := hq q hmem
      have hne : q ≠ p := by
        rw [List.mem_append, List.mem_singleton] at hmem
        rcases hmem with hmem | hmem
        · exact fun e => hnot (e ▸ hmem)
        · intro e
          have := congrArg List.length (hmem.symm.trans e)
          simp at this
      exact ⟨slotFree_modify_other _ _ _ _ _ _ hr hql.1 hql.2 hne,
        slotFree_modify_other _ _ _ _ _ _ hr hql.1 hql.2 hne⟩
    · subst hmem
      exact ⟨slotFree_modify_new _ _ _ _ _ hr, slotFree_modify_new _ _ _ _ _ hr⟩
  · refine ⟨j + 2, ?_, by omega⟩
    rw [List.map_append, List.map_append, hrest, List.map_singleton, List.map_singleton,
      pathIdx_append, pathIdx_append, hp, List.range'_concat, List.range'_concat]
    simp only [Side.childIdx]
    have e1 : 2 * (j + 1) = j + 2 + 1 * j := by omega
    have e2 : j + 2 + 1 * j + 1 = j + 2 + 1 * (j + 1) := by omega
    rw [e1, e2]

/-! ### Generation: what the loop returns -/

theorem LoopInv.queue_ne_nil {root : Top} {queue : List Path} {count : Nat}
    {used : List Int} (h : LoopInv root queue count used) : queue ≠ [] := by
  obtain ⟨j, hj, hc⟩ := h.idx
  intro e
  subst e
  cases j with
  | zero => omega
  | succ j => simp [List.range'_succ] at hj

theorem insertLoop_sound (resize : Int → Int → Int × Int) (N : Int) : ∀ (k : Nat) (root : Top)
    (queue : List Path) (n : Nat) (used : List Int) (lo hi : Int) (draws : List Nat) (t : Top),
    (N - n).toNat ≤ k → LoopInv root queue n used → (n : Int) ≤ N →
    insertLoop resize N root queue n used lo hi draws = some t →
    ∃ used', TreeInv t N.toNat used' := by
  intro k
  induction k with
  | zero =>
    intro root queue n used lo hi draws t hk hinv hle hres
    have hn : ¬ (n : Int) < N := by omega
    rw [insertLoop_done _ _ _ _ _ _ _ _ _ hn] at hres
    cases hres
    have : N.toNat = n := by omega
    exact ⟨used, this ▸ hinv.tree⟩
  | succ k ih =>
    intro root queue n used lo hi draws t hk hinv hle hres
    by_cases hlt : (n : Int) < N
    · cases queue with
      | nil => exact absurd rfl hinv.queue_ne_nil
      | cons p rest =>
        rw [insertLoop_step _ _ _ _ _ _ _ _ _ _ hlt] at hres
        cases h1 : drawFresh lo hi used draws with
        | none => simp [h1] at hres
        | some r1 =>
          obtain ⟨v₁, d₁⟩ := r1
          have hv₁ := drawFresh_not_mem _ _ _ _ _ _ h1
          simp only [h1] at hres
          by_cases h2 : (n : Int) + 1 < N
          · simp only [h2, if_true] at hres
            cases h3 : drawFresh (resize lo hi).1 (resize lo hi).2 (v₁ :: used) d₁ with
            | none => simp [h3] at hres
            | some r2 =>
              obtain ⟨v₂, d₂⟩ := r2
              have hv₂ := drawFresh_not_mem _ _ _ _ _ _ h3
              simp only [h3] at hres
              have hcast : ((n : Int) + 1 + 1) = ((n + 1 + 1 : Nat) : Int) := by push_cast; ring
              rw [hcast] at hres
              exact ih _ _ _ _ _ _ _ t (by omega) (hinv.step v₁ v₂ hv₁ hv₂) (by omega) hres
          · simp only [h2, if_false, Option.some.injEq] at hres
            subst hres
            have : N.toNat = n + 1 := by omega
            exact ⟨v₁ :: used, this ▸ (hinv.step_left v₁ hv₁).1⟩
    · rw [insertLoop_done _ _ _ _ _ _ _ _ _ hlt] at hres
      cases hres
      have : N.toNat = n := by omega
      exact ⟨used, this ▸ hinv.tree⟩

theorem newTop_setValue (v : Int) :
    newTop.modify (Node.setValue v) [] = .node v .null .null := rfl

theorem generate_sound (N : Int) (held : Top) (draws : List Nat) (t : Top) (hN : 1 ≤ N)
    (h : generate N held draws = some t) : ∃ used, TreeInv t N.toNat used := by
  unfold generate at h
  simp only [not_lt.2 hN, if_false] at h
  cases draws with
  | nil => simp at h
  | cons raw draws =>
    simp only [newTop_setValue] at h
    exact insertLoop_sound _ N _ _ _ 1 _ _ _ _ t (le_refl _) (LoopInv.initial _) (by simpa using hN) h

theorem generateRnd_sound (N : Int) (held : Top) (draws : List Nat) (t : Top) (hN : 1 ≤ N)
    (h : generateRnd N held draws = some t) : ∃ used, TreeInv t N.toNat used := by
  unfold generateRnd at h
  simp only [not_lt.2 hN, if_false] at h
  cases draws with
  | nil => simp at h
  | cons raw draws =>
    simp only [newTop_setValue] at h
    exact insertLoop_sound _ N _ _ _ 1 _ _ _ _ t (le_refl _) (LoopInv.initial _) (by simpa using hN) h

theorem TreeInv.countNodes_eq {t : Top} {N : Int} {used : List Int} (hN : 1 ≤ N)
    (h : TreeInv t N.toNat used) : countNodes t = N := by
  rw [countNodes_eq_size, h.size_eq]
  omega

theorem TreeInv.values_nodup {t : Top} {n : Nat} {used : List Int} (h : TreeInv t n used) :
    (collectSubtreeNodes t []).Nodup :=
  h.vals.nodup_iff.2 h.nodup

theorem TreeInv.complete {t : Top} {n : Nat} {used : List Int} (h : TreeInv t n used) :
    isCompleteBinaryTree t = true := by
  rw [isCompleteBinaryTree_iff_numbering, h.size_eq]
  exact h.numb

/-! ### Generation: when the loop ends -/

theorem card_insert_sdiff_le (v : Int) (R U : Finset Int) :
    ((insert v R) \ U).card ≤ (R \ insert v U).card + 1 := by
  have hsub : (insert v R) \ U ⊆ insert v (R \ insert v U) := by
    intro x hx
    simp only [Finset.mem_sdiff, Finset.mem_insert] at hx ⊢
    by_cases hxv : x = v
    · exact Or.inl hxv
    · right
      rcases hx with ⟨hx1 | hx1, hx2⟩
      · exact absurd hx1 hxv
      · exact ⟨hx1, fun h => h.elim hxv hx2⟩
  exact (Finset.card_le_card hsub).trans (Finset.card_insert_le _ _)

theorem drawFresh_of_fresh (lo hi : Int) (used : List Int) : ∀ draws : List Nat,
    1 ≤ ((draws.map (generate_random_number lo hi)).toFinset \ used.toFinset).card →
    ∃ v d, drawFresh lo hi used draws = some (v, d) ∧
      ((draws.map (generate_random_number lo hi)).toFinset \ used.toFinset).card ≤
        ((d.map (generate_random_number lo hi)).toFinset \ (v :: used).toFinset).card + 1 := by
  intro draws
  induction draws with
  | nil => intro h; simp at h
  | cons raw rest ih =>
    intro h
    simp only [drawFresh]
    by_cases hm : generate_random_number lo hi raw ∈ used
    · simp only [hm, if_true]
      have e : ((List.map (generate_random_number lo hi) (raw :: rest)).toFinset \ used.toFinset)
          = ((List.map (generate_random_number lo hi) rest).toFinset \ used.toFinset) := by
        rw [List.map_cons, List.toFinset_cons, Finset.insert_sdiff_of_mem]
        simpa using hm
      rw [e] at h ⊢
      exact ih h
    · simp only [hm, if_false]
      refine ⟨_, _, rfl, ?_⟩
      rw [List.map_cons, List.toFinset_cons, List.toFinset_cons]
      exact card_insert_sdiff_le _ _ _

theorem insertLoop_total_fixed (N : Int) (lo hi : Int) : ∀ (k : Nat) (root : Top)
    (queue : List Path) (c : Int) (used : List Int) (draws : List Nat),
    (N - c).toNat ≤ k →
    N - c ≤ ((draws.map (generate_random_number lo hi)).toFinset \ used.toFinset).card →
    ∃ t, insertLoop (fun lo hi => (lo, hi)) N root queue c used lo hi draws = some t := by
  intro k
  induction k with
  | zero =>
    intro root queue c used draws hk _
    exact ⟨root, insertLoop_done _ _ _ _ _ _ _ _ _ (by omega)⟩
  | succ k ih =>
    intro root queue c used draws hk hfresh
    by_cases hlt : c < N
    · cases queue with
      | nil =>
        refine ⟨root, ?_⟩
        rw [insertLoop.eq_def]
        simp [hlt]
      | cons p rest =>
        rw [insertLoop_step _ _ _ _ _ _ _ _ _ _ hlt]
        obtain ⟨v₁, d₁, h1, hc1⟩ := drawFresh_of_fresh lo hi used draws (by omega)
        simp only [h1]
        by_cases h2 : c + 1 < N
        · simp only [h2, if_true]
          obtain ⟨v₂, d₂, h3, hc2⟩ := drawFresh_of_fresh lo hi (v₁ :: used) d₁ (by omega)
          simp only [h3]
          exact ih _ _ _ _ _ (by omega) (by omega)
        · simp only [h2, if_false]
          exact ⟨_, rfl⟩
    · exact ⟨root, insertLoop_done _ _ _ _ _ _ _ _ _ hlt⟩

theorem generateRnd_total (N : Int) (held : Top) (draws : List Nat) (hN : 1 ≤ N)
    (hd : N ≤ ((draws.map (generate_random_number 1 120000)).dedup.length : Int)) :
    ∃ t, generateRnd N held draws = some t := by
  unfold generateRnd
  simp only [not_lt.2 hN, if_false]
  cases draws with
  | nil => simp at hd; omega
  | cons raw rest =>
    simp only
    apply insertLoop_total_fixed N 1 120000 _ _ _ _ _ _ (le_refl _)
    rw [← List.card_toFinset, List.map_cons, List.toFinset_cons] at hd
    have h1 := card_insert_sdiff_le (generate_random_number 1 120000 raw)
      (List.map (generate_random_number 1 120000) rest).toFinset ∅
    simp only [Finset.sdiff_empty] at h1
    have e : ([generate_random_number 1 120000 raw] : List Int).toFinset
        = insert (generate_random_number 1 120000 raw) ∅ := by simp
    rw [e]
    omega

theorem generate_random_number_mem (lo hi : Int) (raw : Nat) (h : lo ≤ hi) :
    lo ≤ generate_random_number lo hi raw ∧ generate_random_number lo hi raw ≤ hi := by
  unfold generate_random_number
  have h1 : 0 ≤ (raw : Int) % (hi - lo + 1) := Int.emod_nonneg _ (by omega)
  have h2 : (raw : Int) % (hi - lo + 1) < hi - lo + 1 := Int.emod_lt_of_pos _ (by omega)
  constructor <;> omega

theorem generate_random_number_onto (lo hi v : Int) (h1 : lo ≤ v) (h2 : v ≤ hi) :
    ∃ raw : Nat, generate_random_number lo hi raw = v := by
  refine ⟨(v - lo).toNat, ?_⟩
  unfold generate_random_number
  have e : (((v - lo).toNat : Nat) : Int) = v - lo := Int.toNat_of_nonneg (by omega)
  rw [e, Int.emod_eq_of_lt (by omega) (by omega)]
  omega

theorem drawFresh_of_lt (lo hi : Int) (used : List Int) (raw : Nat) (rest : List Nat)
    (hu : ∀ u ∈ used, u < lo) (h : lo ≤ hi) :
    drawFresh lo hi used (raw :: rest) = some (generate_random_number lo hi raw, rest) := by
  have hm := generate_random_number_mem lo hi raw h
  have : generate_random_number lo hi raw ∉ used := by
    intro hmem
    have := hu _ hmem
    omega
  simp [drawFresh, this]

theorem resizeRange_five (lo hi : Int) (h0 : 0 ≤ hi) (h1 : hi + 6 ≤ 2147483647) :
    resizeRange lo hi 5 = (hi + 1, hi + 6) := by
  unfold resizeRange wrapInt
  have e1 : (5 + 1 + 2147483648 : Int) % 4294967296 - 2147483648 = 6 := by norm_num
  rw [e1]
  have e2 : (hi + 1 + 2147483648) % 4294967296 = hi + 1 + 2147483648 :=
    Int.emod_eq_of_lt (by omega) (by omega)
  have e3 : (hi + 6 + 2147483648) % 4294967296 = hi + 6 + 2147483648 :=
    Int.emod_eq_of_lt (by omega) (by omega)
  rw [e2, e3]
  simp

theorem resizeRange_first : resizeRange 1 5 10 = (6, 16) := by
  unfold resizeRange wrapInt
  norm_num

theorem insertLoop_total_grow (N : Int) : ∀ (k : Nat) (root : Top) (queue : List Path)
    (c : Int) (used : List Int) (lo hi : Int) (draws : List Nat),
    (N - c).toNat ≤ k → (∀ u ∈ used, u < lo) → lo ≤ hi → 0 ≤ hi →
    hi + 6 * (N - c) ≤ 2147483647 → N - c ≤ draws.length →
    ∃ t, insertLoop (fun lo hi => resizeRange lo hi 5) N root queue c used lo hi draws
      = some t := by
  intro k
  induction k with
  | zero =>
    intro root queue c used lo hi draws hk _ _ _ _ _
    exact ⟨root, insertLoop_done _ _ _ _ _ _ _ _ _ (by omega)⟩
  | succ k ih =>
    intro root queue c used lo hi draws hk hu hlh h0 hb hd
    by_cases hlt : c < N
    · cases queue with
      | nil =>
        refine ⟨root, ?_⟩
        rw [insertLoop.eq_def]
        simp [hlt]
      | cons p rest =>
        rw [insertLoop_step _ _ _ _ _ _ _ _ _ _ hlt]
        cases draws with
        | nil => simp at hd; omega
        | cons raw₁ d₁ =>
          have hm1 := generate_random_number_mem lo hi raw₁ hlh
          simp only [drawFresh_of_lt lo hi used raw₁ d₁ hu hlh,
            resizeRange_five lo hi h0 (by omega)]
          by_cases h2 : c + 1 < N
          · simp only [h2, if_true]
            cases d₁ with
            | nil => simp at hd; omega
            | cons raw₂ d₂ =>
              have hu1 : ∀ u ∈ generate_random_number lo hi raw₁ :: used, u < hi + 1 := by
                intro u hmem
                rcases List.mem_cons.1 hmem with e | e
                · omega
                · have := hu u e; omega
              have hm2 := generate_random_number_mem (hi + 1) (hi + 6) raw₂ (by omega)
              simp only [drawFresh_of_lt (hi + 1) (hi + 6) _ raw₂ d₂ hu1 (by omega),
                resizeRange_five (hi + 1) (hi + 6) (by omega) (by omega)]
              apply ih _ _ _ _ _ _ _ (by omega)
              · intro u hmem
                rcases List.mem_cons.1 hmem with e | e
                · omega
                · have := hu1 u e; omega
              · omega
              · omega
              · omega
              · simp only [List.length_cons] at hd ⊢
                push_cast at hd ⊢
                omega
          · simp only [h2, if_false]
            exact ⟨_, rfl⟩
    · exact ⟨root, insertLoop_done _ _ _ _ _ _ _ _ _ hlt⟩

theorem generate_total (N : Int) (held : Top) (draws : List Nat) (hN : 1 ≤ N)
    (hb : N ≤ 357913939) (hd : N ≤ draws.length) :
    ∃ t, generate N held draws = some t := by
  unfold generate
  simp only [not_lt.2 hN, if_false]
  cases draws with
  | nil => simp at hd; omega
  | cons raw rest =>
    have hm := generate_random_number_mem 1 5 raw (by norm_num)
    simp only [resizeRange_first]
    apply insertLoop_total_grow N _ _ _ _ _ _ _ _ (le_refl _)
    · intro u hu
      simp only [List.mem_singleton] at hu
      omega
    · norm_num
    · norm_num
    · omega
    · simp only [List.length_cons] at hd
      push_cast at hd
      omega

theorem generate_lt_one (N : Int) (held : Top) (draws : List Nat) (hN : N < 1) :
    generate N held draws = some Top.null := by
  simp [generate, hN]

theorem generateRnd_lt_one (N : Int) (held : Top) (draws : List Nat) (hN : N < 1) :
    generateRnd N held draws = some Top.null := by
  simp [generateRnd, hN]

theorem insertLoop_replicate (N : Int) (root : Top) (p : Path) (queue : List Path)
    (hN : 1 < N) : ∀ k : Nat,
    insertLoop (fun lo hi => (lo, hi)) N root (p :: queue) 1
      [generate_random_number 1 120000 0] 1 120000 (List.replicate k 0) = none := by
  intro k
  rw [insertLoop_step _ _ _ _ _ _ _ _ _ _ hN]
  have : drawFresh 1 120000 [generate_random_number 1 120000 0] (List.replicate k 0) = none := by
    induction k with
    | zero => simp [drawFresh]
    | succ k ih => simp [List.replicate_succ, drawFresh, ih]
  rw [this]

/-! ### Generation: the claims -/

/-- C8 as stated fails for `generateRnd`.  With `N = 2` and a sequence of draws
that are all equal (each is the in-range value 1), the root takes the value 1,
the left child is created, and every further draw collides with the root and
is retried: however many draws are supplied, the call has not completed. -/
theorem generateRnd_constant_draws_counterexample :
    ¬ ∃ (k : Nat) (t : Top), generateRnd 2 Top.null (List.replicate k 0) = some t := by
  rintro ⟨k, t, h⟩
  cases k with
  | zero => simp [generateRnd] at h
  | succ k =>
    unfold generateRnd at h
    simp only [List.replicate_succ, newTop_setValue] at h
    rw [if_neg (by norm_num), insertLoop_replicate 2 _ _ _ (by norm_num) k] at h
    exact Option.noConfusion h

/-- C8, amended.  Whatever tree was held before: for `N < 1` both `generate` and
`generateRnd` leave the empty tree; for `1 ≤ N ≤ 357913939` (the growing ranges
of `generate` then stay within `int`) `generate N` completes on every sequence
of at least `N` in-range draws and leaves a tree with exactly `N` nodes;
`generateRnd N` completes as soon as the draws supply `N` pairwise distinct
values and then leaves a tree with exactly `N` nodes; and whenever either call
completes with `N ≥ 1`, the tree has exactly `N` nodes. -/
theorem generate_countNodes_spec :
    (∀ (N : Int) (held : Top) (draws : List Nat), N < 1 →
      generate N held draws = some Top.null ∧ generateRnd N held draws = some Top.null) ∧
    (∀ (N : Int) (held : Top) (draws : List Nat), 1 ≤ N → N ≤ 357913939 →
      N ≤ draws.length → ∃ t, generate N held draws = some t ∧ countNodes t = N) ∧
    (∀ (N : Int) (held : Top) (draws : List Nat), 1 ≤ N →
      N ≤ ((draws.map (generate_random_number 1 120000)).dedup.length : Int) →
      ∃ t, generateRnd N held draws = some t ∧ countNodes t = N) ∧
    (∀ (N : Int) (held : Top) (draws : List Nat) (t : Top), 1 ≤ N →
      generate N held draws = some t ∨ generateRnd N held draws = some t →
      countNodes t = N) := by
  refine ⟨fun N held draws hN => ⟨generate_lt_one N held draws hN,
    generateRnd_lt_one N held draws hN⟩, ?_, ?_, ?_⟩
  · intro N held draws hN hb hd
    obtain ⟨t, ht⟩ := generate_total N held draws hN hb hd
    obtain ⟨used, hinv⟩ := generate_sound N held draws t hN ht
    exact ⟨t, ht, hinv.countNodes_eq hN⟩
  · intro N held draws hN hd
    obtain ⟨t, ht⟩ := generateRnd_total N held draws hN hd
    obtain ⟨used, hinv⟩ := generateRnd_sound N held draws t hN ht
    exact ⟨t, ht, hinv.countNodes_eq hN⟩
  · intro N held draws t hN h
    rcases h with h | h
    · obtain ⟨used, hinv⟩ := generate_sound N held draws t hN h
      exact hinv.countNodes_eq hN
    · obtain ⟨used, hinv⟩ := generateRnd_sound N held draws t hN h
      exact hinv.countNodes_eq hN

/-- C8, amended, at concrete inputs: `generate 4` on four draws and
`generateRnd 3` on draws with a repetition. -/
theorem generate_countNodes_witness :
    (∃ t, generate 4 Top.null [0, 0, 0, 0] = some t ∧ countNodes t = 4) ∧
    (∃ t, generateRnd 3 Top.null [0, 0, 1, 0, 2] = some t ∧ countNodes t = 3) :=
  ⟨generate_countNodes_spec.2.1 4 Top.null [0, 0, 0, 0] (by norm_num) (by norm_num)
      (by simp),
    generate_countNodes_spec.2.2.1 3 Top.null [0, 0, 1, 0, 2] (by norm_num)
      (by decide)⟩

theorem generate_values_nodup (N : Int) (held : Top) (draws : List Nat) (t : Top)
    (h : generate N held draws = some t ∨ generateRnd N held draws = some t) :
    (collectSubtreeNodes t []).Nodup := by
  by_cases hN : 1 ≤ N
  · rcases h with h | h
    · obtain ⟨used, hinv⟩ := generate_sound N held draws t hN h
      exact hinv.values_nodup
    · obtain ⟨used, hinv⟩ := generateRnd_sound N held draws t hN h
      exact hinv.values_nodup
  · have hlt : N < 1 := by omega
    rw [generate_lt_one N held draws hlt, generateRnd_lt_one N held draws hlt] at h
    have : t = Top.null := by
      rcases h with h | h <;> exact (Option.some.inj h).symm
    subst this
    simp [collectSubtreeNodes]

theorem generate_complete (N : Int) (held : Top) (draws : List Nat) (t : Top)
    (h : generate N held draws = some t ∨ generateRnd N held draws = some t) :
    isCompleteBinaryTree t = true := by
  by_cases hN : 1 ≤ N
  · rcases h with h | h
    · obtain ⟨used, hinv⟩ := generate_sound N held draws t hN h
      exact hinv.complete
    · obtain ⟨used, hinv⟩ := generateRnd_sound N held draws t hN h
      exact hinv.complete
  · have hlt : N < 1 := by omega
    rw [generate_lt_one N held draws hlt, generateRnd_lt_one N held draws hlt] at h
    have : t = Top.null := by
      rcases h with h | h <;> exact (Option.some.inj h).symm
    subst this
    rfl

/-- C9: for every count `N` and all draws, the node values of the tree that
`generate N` or `generateRnd N` produces are pairwise distinct: the pre-order
value list collected by `collectSubtreeNodes` has no duplicates.  Such a tree
is produced by `generate` on every sequence of at least `N` in-range draws
(`0 ≤ N ≤ 357913939`), and by `generateRnd` as soon as the draws supply `N`
pairwise distinct values. -/
theorem generate_values_distinct_spec :
    (∀ (N : Int) (held : Top) (draws : List Nat) (t : Top),
      generate N held draws = some t ∨ generateRnd N held draws = some t →
      (collectSubtreeNodes t []).Nodup) ∧
    (∀ (N : Int) (held : Top) (draws : List Nat), 0 ≤ N → N ≤ 357913939 →
      N ≤ draws.length →
      ∃ t, generate N held draws = some t ∧ (collectSubtreeNodes t []).Nodup) ∧
    (∀ (N : Int) (held : Top) (draws : List Nat), 0 ≤ N →
      N ≤ ((draws.map (generate_random_number 1 120000)).dedup.length : Int) →
      ∃ t, generateRnd N held draws = some t ∧ (collectSubtreeNodes t []).Nodup) := by
  refine ⟨generate_values_nodup, ?_, ?_⟩
  · intro N held draws h0 hb hd
    have ht : ∃ t, generate N held draws = some t := by
      by_cases hN : 1 ≤ N
      · exact generate_total N held draws hN hb hd
      · exact ⟨_, generate_lt_one N held draws (by omega)⟩
    obtain ⟨t, ht⟩ := ht
    exact ⟨t, ht, generate_values_nodup N held draws t (Or.inl ht)⟩
  · intro N held draws h0 hd
    have ht : ∃ t, generateRnd N held draws = some t := by
      by_cases hN : 1 ≤ N
      · exact generateRnd_total N held draws hN hd
      · exact ⟨_, generateRnd_lt_one N held draws (by omega)⟩
    obtain ⟨t, ht⟩ := ht
    exact ⟨t, ht, generate_values_nodup N held draws t (Or.inr ht)⟩

/-- C9 at concrete inputs: the trees of `generate 4` on the draws 0, 0, 0, 0 and
of `generateRnd 3` on draws with a repetition. -/
theorem generate_values_distinct_witness :
    (collectSubtreeNodes
      (.node 1 (.node 6 (.node 23 .null .null) .null) (.node 17 .null .null)) []).Nodup ∧
    (∃ t, generateRnd 3 Top.null [0, 0, 1, 0, 2] = some t ∧
      (collectSubtreeNodes t []).Nodup) :=
  ⟨generate_values_distinct_spec.1 4 Top.null [0, 0, 0, 0] _
      (Or.inl (by
        simp [generate, insertLoop, drawFresh, generate_random_number, resizeRange, wrapInt,
          newTop, Top.modify, Node.attach, Node.setValue, Node.toTop])),
    generate_values_distinct_spec.2.2 3 Top.null [0, 0, 1, 0, 2] (by norm_num) (by decide)⟩

/-- C10: for every count `N ≥ 1` and all draws, the tree that the breadth-first
insertion of `generate N` or `generateRnd N` builds satisfies
`isCompleteBinaryTree`.  Such a tree is built by `generate` on every sequence
of at least `N` in-range draws (`N ≤ 357913939`), and by `generateRnd` as soon
as the draws supply `N` pairwise distinct values. -/
theorem generate_isCompleteBinaryTree_spec :
    (∀ (N : Int) (held : Top) (draws : List Nat) (t : Top), 1 ≤ N →
      generate N held draws = some t ∨ generateRnd N held draws = some t →
      isCompleteBinaryTree t = true) ∧
    (∀ (N : Int) (held : Top) (draws : List Nat), 1 ≤ N → N ≤ 357913939 →
      N ≤ draws.length →
      ∃ t, generate N held draws = some t ∧ isCompleteBinaryTree t = true) ∧
    (∀ (N : Int) (held : Top) (draws : List Nat), 1 ≤ N →
      N ≤ ((draws.map (generate_random_number 1 120000)).dedup.length : Int) →
      ∃ t, generateRnd N held draws = some t ∧ isCompleteBinaryTree t = true) := by
  refine ⟨fun N held draws t _ h => generate_complete N held draws t h, ?_, ?_⟩
  · intro N held draws hN hb hd
    obtain ⟨t, ht⟩ := generate_total N held draws hN hb hd
    exact ⟨t, ht, generate_complete N held draws t (Or.inl ht)⟩
  · intro N held draws hN hd
    obtain ⟨t, ht⟩ := generateRnd_total N held draws hN hd
    exact ⟨t, ht, generate_complete N held draws t (Or.inr ht)⟩

/-- C10 at concrete inputs: the tree of `generateRnd 3` on the draws 0, 1, 2 and
the tree of `generate 5` on five draws. -/
theorem generate_isCompleteBinaryTree_witness :
    isCompleteBinaryTree (.node 1 (.node 2 .null .null) (.node 3 .null .null)) = true ∧
    (∃ t, generate 5 Top.null [4, 3, 2, 1, 0] = some t ∧ isCompleteBinaryTree t = true) :=
  ⟨generate_isCompleteBinaryTree_spec.1 3 Top.null [0, 1, 2] _ (by norm_num)
      (Or.inr (by
        simp [generateRnd, insertLoop, drawFresh, generate_random_number, newTop,
          Top.modify, Node.attach, Node.setValue, Node.toTop])),
    generate_isCompleteBinaryTree_spec.2.1 5 Top.null [4, 3, 2, 1, 0] (by norm_num)
      (by norm_num) (by simp)⟩

/-! ### Load failures, single nodes, the worked example -/

theorem load_none (root : Top) : load none root = (root, Message.loadFileError) := rfl

theorem load_no_root_element (doc : XMLDocument) (root : Top)
    (h : doc.FirstChildElement "BinaryTree" = none) :
    load (some doc) root = (root, Message.badFormat) := by
  simp [load, h]

/-- C12: a load whose file cannot be read or parsed (`LoadFile` does not return
`XML_SUCCESS`), or whose document has no `BinaryTree` root element, leaves the
tree held before exactly as it was and reports a failure message, not the
success message. -/
theorem load_failure_spec (root : Top) :
    load none root = (root, Message.loadFileError) ∧
    (∀ doc : XMLDocument, doc.FirstChildElement "BinaryTree" = none →
      load (some doc) root = (root, Message.badFormat)) ∧
    Message.loadFileError ≠ Message.loaded ∧ Message.badFormat ≠ Message.loaded :=
  ⟨load_none root, fun doc h => load_no_root_element doc root h, by decide, by decide⟩

/-- C12 at concrete inputs: a populated tree, a missing file, and a document
whose only top-level element is not `BinaryTree`. -/
theorem load_failure_witness :
    load none example534 = (example534, Message.loadFileError) ∧
    load (some [NewElement "Tree"]) example534 = (example534, Message.badFormat) :=
  ⟨(load_failure_spec example534).1,
    (load_failure_spec example534).2.1 [NewElement "Tree"] (by
      have h : ("Tree" == "BinaryTree") = false := by decide
      simp [XMLDocument.FirstChildElement, NewElement, XMLElement.Name, h])⟩

theorem isHeapSubtree_of_isLeaf (n : Top) (h : isLeaf n = true) : isHeapSubtree n = true := by
  cases n with
  | null => simp [isLeaf] at h
  | node v l r =>
    cases l with
    | node lv ll lr => simp [isLeaf] at h
    | null =>
      cases r with
      | node rv rl rr => simp [isLeaf] at h
      | null =>
        simp [isHeapSubtree, isMaxHeap, isMinHeap, isCompleteBinaryTree, completeLoop,
          isLeftLessThanRight]

theorem exists_leaf (t : Top) (ht : t ≠ Top.null) :
    ∃ n, n ∈ subtrees t ∧ isLeaf n = true := by
  induction t with
  | null => exact absurd rfl ht
  | node v l r ihl ihr =>
    cases l with
    | node lv ll lr =>
      obtain ⟨n, hn, hl⟩ := ihl (by simp)
      exact ⟨n, by rw [mem_subtrees_node]; exact Or.inr (Or.inl hn), hl⟩
    | null =>
      cases r with
      | node rv rl rr =>
        obtain ⟨n, hn, hl⟩ := ihr (by simp)
        exact ⟨n, by rw [mem_subtrees_node]; exact Or.inr (Or.inr hn), hl⟩
      | null => exact ⟨.node v .null .null, by simp [subtrees], rfl⟩

theorem heap_count_eq (root : Top) :
    (checkHeap_notHeap root (0, 0)).1 = ((subtrees root).countP isHeapSubtree : Nat) := by
  rw [checkHeap_notHeap_acc]
  simp

theorem nonheap_count_eq (root : Top) :
    (checkHeap_notHeap root (0, 0)).2
      = ((subtrees root).countP (fun n => !isHeapSubtree n) : Nat) := by
  rw [checkHeap_notHeap_acc]
  simp

/-- C14: for every integer `v` the single-node subtree holding `v` passes all
four tests and is classified "heap"; every leaf of a tree is a subtree
classified "heap", so `heap_count` is at least the number of leaves, and at
least 1 for a non-empty tree. -/
theorem single_node_heap_spec :
    (∀ v : Int, isMaxHeap (.node v .null .null) = true ∧
      isMinHeap (.node v .null .null) = true ∧
      isCompleteBinaryTree (.node v .null .null) = true ∧
      isLeftLessThanRight (.node v .null .null) = true ∧
      isHeapSubtree (.node v .null .null) = true) ∧
    (∀ root n : Top, n ∈ subtrees root → isLeaf n = true → isHeapSubtree n = true) ∧
    (∀ root : Top, ((subtrees root).countP isLeaf : Int)
      ≤ (checkHeap_notHeap root (0, 0)).1) ∧
    (∀ root : Top, root ≠ Top.null → 1 ≤ (checkHeap_notHeap root (0, 0)).1) := by
  refine ⟨?_, fun _ n _ h => isHeapSubtree_of_isLeaf n h, ?_, ?_⟩
  · intro v
    simp [isHeapSubtree, isMaxHeap, isMinHeap, isCompleteBinaryTree, completeLoop,
      isLeftLessThanRight]
  · intro root
    rw [heap_count_eq]
    exact_mod_cast List.countP_mono_left (fun n _ h => isHeapSubtree_of_isLeaf n h)
  · intro root hr
    rw [heap_count_eq]
    obtain ⟨n, hn, hl⟩ := exists_leaf root hr
    have : 0 < (subtrees root).countP isHeapSubtree :=
      List.countP_pos_iff.2 ⟨n, hn, isHeapSubtree_of_isLeaf n hl⟩
    exact_mod_cast this

/-- C15: the worked example.  For root 5, left 3, right 4 the tests `isMaxHeap`,
`isCompleteBinaryTree` and `isLeftLessThanRight` are true, the root is
classified "heap" and the counters end at 3 and 0; for root 5, left 4, right 3
`isMaxHeap` is true, `isLeftLessThanRight` is false, the root is classified
"non-heap" and the counters end at 2 and 1. -/
theorem worked_example_spec :
    isMaxHeap example534 = true ∧ isCompleteBinaryTree example534 = true ∧
    isLeftLessThanRight example534 = true ∧ isHeapSubtree example534 = true ∧
    checkHeap_notHeap example534 (0, 0) = (3, 0) ∧
    isMaxHeap example543 = true ∧ isLeftLessThanRight example543 = false ∧
    isHeapSubtree example543 = false ∧
    checkHeap_notHeap example543 (0, 0) = (2, 1) := by
  have hleaf : ∀ v : Int, isHeapSubtree (.node v .null .null) = true :=
    fun v => isHeapSubtree_of_isLeaf _ rfl
  have c1 : isCompleteBinaryTree example534 = true := by
    simp [example534, isCompleteBinaryTree, completeLoop]
  have c2 : isCompleteBinaryTree example543 = true := by
    simp [example543, isCompleteBinaryTree, completeLoop]
  have m1 : isMaxHeap example534 = true := by decide
  have m2 : isMaxHeap example543 = true := by decide
  have l1 : isLeftLessThanRight example534 = true := by decide
  have l2 : isLeftLessThanRight example543 = false := by decide
  have h1 : isHeapSubtree example534 = true := by simp [isHeapSubtree, m1, c1, l1]
  have h2 : isHeapSubtree example543 = false := by simp [isHeapSubtree, l2]
  refine ⟨m1, c1, l1, h1, ?_, m2, l2, h2, ?_⟩
  · rw [checkHeap_notHeap_acc]
    have e : subtrees example534
        = [example534, .node 3 .null .null, .node 4 .null .null] := rfl
    simp [e, List.countP_cons, h1, hleaf]
  · rw [checkHeap_notHeap_acc]
    have e : subtrees example543
        = [example543, .node 4 .null .null, .node 3 .null .null] := rfl
    simp [e, List.countP_cons, h2, hleaf]

/-! ### Breadth-first order and subtrees -/

theorem mem_bfsOrder (t : Top) (n : Node) :
    n ∈ bfsOrder t ↔ ∃ d, d < height t ∧ n ∈ level t d := by
  simp [bfsOrder, List.mem_flatMap]

theorem mem_bfsOrder_of_mem_subtrees (t : Top) : ∀ (v : Int) (l r : Top),
    Top.node v l r ∈ subtrees t → (⟨v, l, r⟩ : Node) ∈ bfsOrder t := by
  induction t with
  | null => intro v l r h; simp [subtrees] at h
  | node w tl tr ihl ihr =>
    intro v l r h
    rw [mem_subtrees_node] at h
    rw [mem_bfsOrder]
    rcases h with h | h | h
    · cases h
      exact ⟨0, by simp [height], by simp [level]⟩
    · obtain ⟨d, hd, hm⟩ := (mem_bfsOrder tl _).1 (ihl v l r h)
      exact ⟨d + 1, by simp only [height]; omega, by simp [level, hm]⟩
    · obtain ⟨d, hd, hm⟩ := (mem_bfsOrder tr _).1 (ihr v l r h)
      exact ⟨d + 1, by simp only [height]; omega, by simp [level, hm]⟩

theorem isCompleteBinaryTree_false_of_rightOnly (root : Top) (v : Int) (r : Top)
    (hr : r ≠ Top.null) (h : Top.node v Top.null r ∈ subtrees root) :
    isCompleteBinaryTree root = false := by
  cases hc : isCompleteBinaryTree root with
  | false => rfl
  | true =>
    exfalso
    have h2 := ((isCompleteBinaryTree_iff_bfs root).1 hc).2 _
      (mem_bfsOrder_of_mem_subtrees root v .null r h)
    apply h2
    cases r with
    | null => exact absurd rfl hr
    | node rv rl rr => exact ⟨rfl, rfl⟩

/-- C11: a tree that contains, anywhere in it, a node with a right child but no
left child is rejected: `isCompleteBinaryTree root` returns `false`. -/
theorem isCompleteBinaryTree_rightOnly_spec (root : Top) (v : Int) (r : Top)
    (hr : r ≠ Top.null) (h : Top.node v Top.null r ∈ subtrees root) :
    isCompleteBinaryTree root = false :=
  isCompleteBinaryTree_false_of_rightOnly root v r hr h

/-- C11 at a concrete input: the node 3 of the tree 1(3(-,4), 2) has a right
child but no left child. -/
theorem isCompleteBinaryTree_rightOnly_witness :
    isCompleteBinaryTree
      (.node 1 (.node 3 .null (.node 4 .null .null)) (.node 2 .null .null)) = false :=
  isCompleteBinaryTree_rightOnly_spec _ 3 (.node 4 .null .null) (by decide) (by decide)

theorem level_eq_nil (t : Top) : ∀ d, height t ≤ d → level t d = [] := by
  induction t with
  | null => intro d _; rfl
  | node v l r ihl ihr =>
    intro d hd
    cases d with
    | zero => simp [height] at hd
    | succ d =>
      simp only [height] at hd
      simp only [level, ihl d (by omega), ihr d (by omega), List.append_nil]

theorem flatMap_level_range (t : Top) (k : Nat) :
    (List.range (height t + k)).flatMap (level t) = bfsOrder t := by
  induction k with
  | zero => rfl
  | succ k ih =>
    rw [← Nat.add_assoc, List.range_succ, List.flatMap_append, ih]
    simp [level_eq_nil t (height t + k) (by omega)]

theorem bfsOrder_eq_of_le (t : Top) (H : Nat) (h : height t ≤ H) :
    bfsOrder t = (List.range H).flatMap (level t) := by
  have := flatMap_level_range t (H - height t)
  rw [Nat.add_sub_cancel' h] at this
  exact this.symm

theorem sublist_flatMap {α β : Type} (f g : α → List β) (L : List α)
    (h : ∀ x, (f x).Sublist (g x)) : (L.flatMap f).Sublist (L.flatMap g) := by
  induction L with
  | nil => simp
  | cons a L ih =>
    simp only [List.flatMap_cons]
    exact (h a).append ih

theorem bfsOrder_node (v : Int) (l r : Top) :
    bfsOrder (.node v l r)
      = ⟨v, l, r⟩ :: (List.range (max (height l) (height r))).flatMap
          (fun d => level l d ++ level r d) := by
  rw [bfsOrder]
  simp only [height]
  rw [Nat.add_comm, List.range_succ_eq_map, List.flatMap_cons, List.flatMap_map]
  rfl

theorem bfsOrder_left_sublist (v : Int) (l r : Top) :
    (bfsOrder l).Sublist (bfsOrder (.node v l r)) := by
  rw [bfsOrder_node, bfsOrder_eq_of_le l _ (le_max_left _ _)]
  exact (sublist_flatMap _ _ _ (fun d => List.sublist_append_left _ _)).trans
    (List.sublist_cons_self _ _)

theorem bfsOrder_right_sublist (v : Int) (l r : Top) :
    (bfsOrder r).Sublist (bfsOrder (.node v l r)) := by
  rw [bfsOrder_node, bfsOrder_eq_of_le r _ (le_max_right _ _)]
  exact (sublist_flatMap _ _ _ (fun d => List.sublist_append_right _ _)).trans
    (List.sublist_cons_self _ _)

theorem isCompleteBinaryTree_of_sublist (t s : Top) (h : (bfsOrder s).Sublist (bfsOrder t))
    (ht : isCompleteBinaryTree t = true) : isCompleteBinaryTree s = true := by
  rw [isCompleteBinaryTree_iff_bfs] at ht ⊢
  exact ⟨ht.1.sublist h, fun a ha => ht.2 a (h.subset ha)⟩

/-! ### The combined verdict is hereditary -/

theorem isMaxHeap_children (v : Int) (l r : Top) (h : isMaxHeap (.node v l r) = true) :
    isMaxHeap l = true ∧ isMaxHeap r = true := by
  cases l <;> cases r <;> simp_all [isMaxHeap]

theorem isMinHeap_children (v : Int) (l r : Top) (h : isMinHeap (.node v l r) = true) :
    isMinHeap l = true ∧ isMinHeap r = true := by
  cases l <;> cases r <;> simp_all [isMinHeap]

theorem isHeapSubtree_children (v : Int) (l r : Top)
    (h : isHeapSubtree (.node v l r) = true) :
    isHeapSubtree l = true ∧ isHeapSubtree r = true := by
  simp only [isHeapSubtree, Bool.and_eq_true, Bool.or_eq_true] at h ⊢
  obtain ⟨⟨hm, hc⟩, hl⟩ := h
  have hcl := isCompleteBinaryTree_of_sublist _ l (bfsOrder_left_sublist v l r) hc
  have hcr := isCompleteBinaryTree_of_sublist _ r (bfsOrder_right_sublist v l r) hc
  have hll := (isLeftLessThanRight_node v l r).1 hl
  rcases hm with hm | hm
  · have := isMaxHeap_children v l r hm
    exact ⟨⟨⟨Or.inl this.1, hcl⟩, hll.2.1⟩, ⟨⟨Or.inl this.2, hcr⟩, hll.2.2⟩⟩
  · have := isMinHeap_children v l r hm
    exact ⟨⟨⟨Or.inr this.1, hcl⟩, hll.2.1⟩, ⟨⟨Or.inr this.2, hcr⟩, hll.2.2⟩⟩

theorem isHeapSubtree_of_mem_subtrees (n : Top) : ∀ p : Top, p ∈ subtrees n →
    isHeapSubtree n = true → isHeapSubtree p = true := by
  induction n with
  | null => intro p hp; simp [subtrees] at hp
  | node v l r ihl ihr =>
    intro p hp h
    rw [mem_subtrees_node] at hp
    have hc := isHeapSubtree_children v l r h
    rcases hp with hp | hp | hp
    · rw [hp]; exact h
    · exact ihl p hp hc.1
    · exact ihr p hp hc.2

theorem checkHeap_notHeap_of_isHeapSubtree (root : Top) (h : isHeapSubtree root = true) :
    checkHeap_notHeap root (0, 0) = (countNodes root, 0) := by
  have hall : ∀ p ∈ subtrees root, isHeapSubtree p = true :=
    fun p hp => isHeapSubtree_of_mem_subtrees root p hp h
  have h1 : (subtrees root).countP isHeapSubtree = (subtrees root).length :=
    List.countP_eq_length.2 hall
  have h2 : (subtrees root).countP (fun n => !isHeapSubtree n) = 0 := by
    rw [List.countP_eq_zero]
    intro p hp
    simp [hall p hp]
  rw [checkHeap_notHeap_acc, h1, h2, length_subtrees, countNodes_eq_size]
  simp

/-- C17: the combined verdict is hereditary.  If the subtree rooted at `n` is
classified "heap", so is the subtree rooted at every descendant of `n`; hence
when the root is classified "heap", `checkHeap_notHeap` ends with
`heap_count = countNodes root` and `nonheap_count = 0`. -/
theorem isHeapSubtree_hereditary_spec :
    (∀ n p : Top, p ∈ subtrees n → isHeapSubtree n = true → isHeapSubtree p = true) ∧
    (∀ root : Top, isHeapSubtree root = true →
      checkHeap_notHeap root (0, 0) = (countNodes root, 0)) :=
  ⟨isHeapSubtree_of_mem_subtrees, checkHeap_notHeap_of_isHeapSubtree⟩

/-- C17 at a concrete input: the tree 5(3, 4) is classified "heap", so are its
leaves, and the counters end at 3 and 0. -/
theorem isHeapSubtree_hereditary_witness :
    isHeapSubtree (.node 4 .null .null) = true ∧
    checkHeap_notHeap example534 (0, 0) = (countNodes example534, 0) := by
  have h : isHeapSubtree example534 = true := by
    have c1 : isCompleteBinaryTree example534 = true := by
      simp [example534, isCompleteBinaryTree, completeLoop]
    have m1 : isMaxHeap example534 = true := by decide
    have l1 : isLeftLessThanRight example534 = true := by decide
    simp [isHeapSubtree, m1, c1, l1]
  exact ⟨isHeapSubtree_hereditary_spec.1 example534 _ (by decide) h,
    isHeapSubtree_hereditary_spec.2 example534 h⟩

/-! ### The two reports of `printAllSubtrees` -/

theorem collectSubtreeNodes_eq_preorder (t : Top) : collectSubtreeNodes t [] = preorder t := by
  induction t with
  | null => rfl
  | node v l r ihl ihr => rw [collectSubtreeNodes_node, ihl, ihr, preorder]

theorem report_append (label : Top → Label) (a b : List Top) : ∀ k : Int,
    report label k (a ++ b) = report label k a ++ report label (k + a.length) b := by
  induction a with
  | nil => intro k; simp [report]
  | cons n a ih =>
    intro k
    have e : k + ((n :: a).length : Int) = k + 1 + (a.length : Int) := by
      simp only [List.length_cons]
      push_cast
      ring
    rw [List.cons_append, report, report, ih, e]
    rfl

theorem length_report (label : Top → Label) (a : List Top) (k : Int) :
    (report label k a).length = a.length := by
  induction a generalizing k with
  | nil => rfl
  | cons n a ih => simp [report, ih]

theorem findAndPrintHeapSubtrees_acc (t : Top) : ∀ (out : List Entry) (k : Int),
    findAndPrintHeapSubtrees t (out, k) =
      (out ++ report heapLabel k ((subtrees t).filter isHeapSubtree),
       k + ((subtrees t).filter isHeapSubtree).length) := by
  induction t with
  | null => intro out k; simp [findAndPrintHeapSubtrees, subtrees, report]
  | node v l r ihl ihr =>
    intro out k
    simp only [findAndPrintHeapSubtrees, subtrees, List.filter_cons, List.filter_append]
    by_cases hv : isHeapSubtree (.node v l r) = true
    · have hv2 := hv
      unfold isHeapSubtree at hv2
      rw [if_pos hv2, ihl, ihr, if_pos hv]
      refine Prod.ext ?_ ?_
      · simp only [report, report_append, collectSubtreeNodes_eq_preorder, Top.value,
          List.append_assoc, List.singleton_append, List.cons_append, List.nil_append]
      · simp only [List.length_cons, List.length_append]
        push_cast
        ring
    · have hv2 := hv
      unfold isHeapSubtree at hv2
      rw [if_neg hv2, ihl, ihr, if_neg hv]
      refine Prod.ext ?_ ?_
      · simp only [report_append, List.append_assoc]
      · simp only [List.length_append]
        push_cast
        ring

theorem findAndPrintNonHeapSubtrees_acc (t : Top) : ∀ (out : List Entry) (k : Int),
    findAndPrintNonHeapSubtrees t (out, k) =
      (out ++ report (fun _ => Label.notHeap) k
        ((subtrees t).filter (fun n => !isHeapSubtree n)),
       k + ((subtrees t).filter (fun n => !isHeapSubtree n)).length) := by
  induction t with
  | null => intro out k; simp [findAndPrintNonHeapSubtrees, subtrees, report]
  | node v l r ihl ihr =>
    intro out k
    simp only [findAndPrintNonHeapSubtrees, subtrees, List.filter_cons, List.filter_append]
    have hd : ((isMaxHeap (.node v l r) || isMinHeap (.node v l r)) &&
        isCompleteBinaryTree (.node v l r) && isLeftLessThanRight (.node v l r))
        = isHeapSubtree (.node v l r) := rfl
    rw [hd]
    by_cases hv : (!isHeapSubtree (.node v l r)) = true
    · simp only [if_pos hv]
      rw [ihl, ihr]
      refine Prod.ext ?_ ?_
      · simp only [report, report_append, collectSubtreeNodes_eq_preorder, Top.value,
          List.append_assoc, List.singleton_append, List.cons_append, List.nil_append]
      · simp only [List.length_cons, List.length_append]
        push_cast
        ring
    · simp only [if_neg hv]
      rw [ihl, ihr]
      refine Prod.ext ?_ ?_
      · simp only [report_append, List.append_assoc]
      · simp only [List.length_append]
        push_cast
        ring

theorem printAllSubtrees_node (v : Int) (l r : Top) :
    printAllSubtrees (.node v l r) =
      [Output.heapHeading]
        ++ (report heapLabel 1 ((subtrees (.node v l r)).filter isHeapSubtree)).map Output.entry
        ++ [Output.nonHeapHeading]
        ++ (report (fun _ => Label.notHeap) 1
            ((subtrees (.node v l r)).filter (fun n => !isHeapSubtree n))).map Output.entry := by
  simp only [printAllSubtrees, findAndPrintHeapSubtrees_acc, findAndPrintNonHeapSubtrees_acc,
    List.nil_append]

/-- C13: for a non-empty tree `printAllSubtrees` writes two reports.  The heap
report lists, in pre-order of their roots and numbered consecutively from 1,
exactly the nodes whose subtree satisfies the combined verdict; the non-heap
report lists in the same way exactly the nodes whose subtree does not; the two
together list every node once; and the vertex list of an entry is the
pre-order value sequence of its subtree, which is what `collectSubtreeNodes`
collects. -/
theorem printAllSubtrees_spec (v : Int) (l r : Top) :
    printAllSubtrees (.node v l r) =
      [Output.heapHeading]
        ++ (report heapLabel 1 ((subtrees (.node v l r)).filter isHeapSubtree)).map Output.entry
        ++ [Output.nonHeapHeading]
        ++ (report (fun _ => Label.notHeap) 1
            ((subtrees (.node v l r)).filter (fun n => !isHeapSubtree n))).map Output.entry ∧
    ((subtrees (.node v l r)).filter isHeapSubtree ++
      (subtrees (.node v l r)).filter (fun n => !isHeapSubtree n)).Perm
        (subtrees (.node v l r)) ∧
    (∀ n : Top, collectSubtreeNodes n [] = preorder n) :=
  ⟨printAllSubtrees_node v l r, List.filter_append_perm _ _, collectSubtreeNodes_eq_preorder⟩

/-- C13 at a concrete input: the two reports for the tree 5(4, 3). -/
theorem printAllSubtrees_witness :
    printAllSubtrees example543 =
      [Output.heapHeading,
        Output.entry ⟨1, 4, Label.maxAndMin, [4]⟩,
        Output.entry ⟨2, 3, Label.maxAndMin, [3]⟩,
        Output.nonHeapHeading,
        Output.entry ⟨1, 5, Label.notHeap, [5, 4, 3]⟩] := by
  have hleaf : ∀ w : Int, isHeapSubtree (.node w .null .null) = true :=
    fun w => isHeapSubtree_of_isLeaf _ rfl
  have h2 : isHeapSubtree example543 = false := by
    have l2 : isLeftLessThanRight example543 = false := by decide
    simp [isHeapSubtree, l2]
  have e : subtrees example543
      = [example543, .node 4 .null .null, .node 3 .null .null] := rfl
  have h := (printAllSubtrees_spec 5 (.node 4 .null .null) (.node 3 .null .null)).1
  rw [show Top.node 5 (.node 4 .null .null) (.node 3 .null .null) = example543 from rfl, e] at h
  have f1 : List.filter isHeapSubtree
      [example543, .node 4 .null .null, .node 3 .null .null]
      = [.node 4 .null .null, .node 3 .null .null] := by
    simp [List.filter_cons, h2, hleaf]
  have f2 : List.filter (fun n => !isHeapSubtree n)
      [example543, .node 4 .null .null, .node 3 .null .null] = [example543] := by
    simp [List.filter_cons, h2, hleaf]
  rw [h, f1, f2]
  decide

/-! ### Subtrees that are both a max-heap and a min-heap -/

theorem isMaxHeap_node (v : Int) (l r : Top) :
    isMaxHeap (.node v l r) = true ↔
      (l ≠ Top.null → l.value ≤ v) ∧ isMaxHeap l = true ∧
      (r ≠ Top.null → r.value ≤ v) ∧ isMaxHeap r = true := by
  cases l <;> cases r <;> simp [isMaxHeap, Top.value, and_assoc]

theorem isMinHeap_node (v : Int) (l r : Top) :
    isMinHeap (.node v l r) = true ↔
      (l ≠ Top.null → v ≤ l.value) ∧ isMinHeap l = true ∧
      (r ≠ Top.null → v ≤ r.value) ∧ isMinHeap r = true := by
  cases l <;> cases r <;> simp [isMinHeap, Top.value, and_assoc]

theorem value_mem_preorder (t : Top) (h : t ≠ Top.null) : t.value ∈ preorder t := by
  cases t with
  | null => exact absurd rfl h
  | node v l r => simp [preorder, Top.value]

theorem preorder_eq_nil (t : Top) : preorder t = [] ↔ t = Top.null := by
  cases t <;> simp [preorder]

theorem both_heaps_iff_value (n : Top) :
    (isMaxHeap n = true ∧ isMinHeap n = true) ↔ ∀ x ∈ preorder n, x = n.value := by
  induction n with
  | null => simp [isMaxHeap, isMinHeap, preorder]
  | node v l r ihl ihr =>
    have key : ∀ t : Top, ((t ≠ Top.null → t.value = v) ∧ ∀ x ∈ preorder t, x = t.value) ↔
        ∀ x ∈ preorder t, x = v := by
      intro t
      by_cases ht : t = Top.null
      · subst ht
        simp [preorder]
      · constructor
        · rintro ⟨h1, h2⟩ x hx
          rw [h2 x hx, h1 ht]
        · intro h
          have hv := h _ (value_mem_preorder t ht)
          exact ⟨fun _ => hv, fun x hx => by rw [h x hx, hv]⟩
    rw [isMaxHeap_node, isMinHeap_node]
    simp only [preorder, Top.value, List.mem_cons, List.mem_append, forall_eq_or_imp, true_and]
    have hsplit : (∀ a, a ∈ preorder l ∨ a ∈ preorder r → a = v) ↔
        (∀ a ∈ preorder l, a = v) ∧ (∀ a ∈ preorder r, a = v) := by
      constructor
      · intro h
        exact ⟨fun a ha => h a (Or.inl ha), fun a ha => h a (Or.inr ha)⟩
      · rintro ⟨h1, h2⟩ a (ha | ha)
        · exact h1 a ha
        · exact h2 a ha
    rw [hsplit, ← key l, ← key r, ← ihl, ← ihr]
    constructor
    · rintro ⟨⟨a1, a2, a3, a4⟩, b1, b2, b3, b4⟩
      exact ⟨⟨fun h => le_antisymm (a1 h) (b1 h), a2, b2⟩,
        fun h => le_antisymm (a3 h) (b3 h), a4, b4⟩
    · rintro ⟨⟨c1, c2, c3⟩, d1, d2, d3⟩
      exact ⟨⟨fun h => (c1 h).le, c2, fun h => (d1 h).le, d2⟩,
        fun h => (c1 h).ge, c3, fun h => (d1 h).ge, d3⟩

theorem both_heaps_iff_all_equal (n : Top) :
    (isMaxHeap n = true ∧ isMinHeap n = true) ↔
      ∀ x ∈ preorder n, ∀ y ∈ preorder n, x = y := by
  rw [both_heaps_iff_value]
  constructor
  · intro h x hx y hy
    rw [h x hx, h y hy]
  · intro h x hx
    have hn : n ≠ Top.null := by
      rintro rfl
      simp [preorder] at hx
    exact h x hx _ (value_mem_preorder n hn)

theorem preorder_sublist_of_mem_subtrees (t : Top) : ∀ n : Top, n ∈ subtrees t →
    (preorder n).Sublist (preorder t) := by
  induction t with
  | null => intro n h; simp [subtrees] at h
  | node v l r ihl ihr =>
    intro n h
    rw [mem_subtrees_node] at h
    rcases h with h | h | h
    · rw [h]
    · exact ((ihl n h).trans (List.sublist_append_left _ _)).trans (List.sublist_cons_self _ _)
    · exact ((ihr n h).trans (List.sublist_append_right _ _)).trans (List.sublist_cons_self _ _)

theorem ne_null_of_mem_subtrees (t n : Top) (h : n ∈ subtrees t) : n ≠ Top.null := by
  induction t with
  | null => simp [subtrees] at h
  | node v l r ihl ihr =>
    rw [mem_subtrees_node] at h
    rcases h with h | h | h
    · rw [h]; simp
    · exact ihl h
    · exact ihr h

theorem heapLabel_eq_maxAndMin (n : Top) :
    heapLabel n = Label.maxAndMin ↔ (isMaxHeap n = true ∧ isMinHeap n = true) := by
  unfold heapLabel
  cases isMaxHeap n <;> cases isMinHeap n <;> simp

theorem isLeaf_iff_length (n : Top) : isLeaf n = true ↔ (preorder n).length = 1 := by
  cases n with
  | null => simp [isLeaf, preorder]
  | node v l r =>
    cases l <;> cases r <;> simp [isLeaf, preorder]

theorem both_heaps_iff_isLeaf (n : Top) (hn : n ≠ Top.null) (hd : (preorder n).Nodup) :
    (isMaxHeap n = true ∧ isMinHeap n = true) ↔ isLeaf n = true := by
  cases n with
  | null => exact absurd rfl hn
  | node v l r =>
    rw [both_heaps_iff_value]
    simp only [preorder, List.nodup_cons] at hd
    constructor
    · intro h
      have hnil : preorder l ++ preorder r = [] := by
        rw [List.eq_nil_iff_forall_not_mem]
        intro x hx
        have := h x (by simp only [preorder, List.mem_cons]; exact Or.inr hx)
        simp only [Top.value] at this
        exact hd.1 (this ▸ hx)
      rw [List.append_eq_nil] at hnil
      rw [preorder_eq_nil, preorder_eq_nil] at hnil
      rw [hnil.1, hnil.2]
      rfl
    · intro h
      cases l with
      | node _ _ _ => simp [isLeaf] at h
      | null =>
        cases r with
        | node _ _ _ => simp [isLeaf] at h
        | null => simp [preorder, Top.value]

theorem mem_report (label : Top → Label) (L : List Top) : ∀ (k : Int) (e : Entry),
    e ∈ report label k L → ∃ n ∈ L, e.label = label n ∧ e.vertices = preorder n := by
  induction L with
  | nil => intro k e h; simp [report] at h
  | cons n L ih =>
    intro k e h
    simp only [report, List.mem_cons] at h
    rcases h with h | h
    · exact ⟨n, List.mem_cons_self _ _, by rw [h], by rw [h]⟩
    · obtain ⟨m, hm, h1, h2⟩ := ih _ e h
      exact ⟨m, List.mem_cons_of_mem _ hm, h1, h2⟩

theorem heapLabel_of_distinct (root n : Top) (hd : (preorder root).Nodup)
    (hn : n ∈ subtrees root) :
    (heapLabel n = Label.maxAndMin ↔ isLeaf n = true) ∧
    (isHeapSubtree n = true → isLeaf n = false →
      (isMaxHeap n = true ∧ isMinHeap n = false ∧ heapLabel n = Label.maxHeap) ∨
      (isMaxHeap n = false ∧ isMinHeap n = true ∧ heapLabel n = Label.minHeap)) := by
  have hnd : (preorder n).Nodup := hd.sublist (preorder_sublist_of_mem_subtrees root n hn)
  have hboth := both_heaps_iff_isLeaf n (ne_null_of_mem_subtrees root n hn) hnd
  refine ⟨by rw [heapLabel_eq_maxAndMin, hboth], ?_⟩
  intro hh hl
  have hnb : ¬ (isMaxHeap n = true ∧ isMinHeap n = true) := by
    rw [hboth, hl]
    exact Bool.false_ne_true
  simp only [isHeapSubtree, Bool.and_eq_true, Bool.or_eq_true] at hh
  unfold heapLabel
  cases hmax : isMaxHeap n <;> cases hmin : isMinHeap n <;> simp_all

/-- C20: `isMaxHeap n` and `isMinHeap n` are both true exactly when all values
of the subtree rooted at `n` are equal.  Hence in a tree with pairwise distinct
values the label "max and min" goes exactly to the single-node subtrees, and a
heap-classified subtree with two or more nodes is a max-heap or a min-heap but
not both, and is labelled accordingly; the same read off the entries that
`findAndPrintHeapSubtrees` prints. -/
theorem both_heaps_spec :
    (∀ n : Top, (isMaxHeap n = true ∧ isMinHeap n = true) ↔
      ∀ x ∈ preorder n, ∀ y ∈ preorder n, x = y) ∧
    (∀ root n : Top, (preorder root).Nodup → n ∈ subtrees root →
      (heapLabel n = Label.maxAndMin ↔ isLeaf n = true) ∧
      (isHeapSubtree n = true → isLeaf n = false →
        (isMaxHeap n = true ∧ isMinHeap n = false ∧ heapLabel n = Label.maxHeap) ∨
        (isMaxHeap n = false ∧ isMinHeap n = true ∧ heapLabel n = Label.minHeap))) ∧
    (∀ root : Top, (preorder root).Nodup →
      ∀ e ∈ (findAndPrintHeapSubtrees root ([], 1)).1,
        (e.label = Label.maxAndMin ↔ e.vertices.length = 1) ∧
        (2 ≤ e.vertices.length → e.label = Label.maxHeap ∨ e.label = Label.minHeap)) := by
  refine ⟨both_heaps_iff_all_equal, heapLabel_of_distinct, ?_⟩
  intro root hd e he
  rw [findAndPrintHeapSubtrees_acc] at he
  simp only [List.nil_append] at he
  obtain ⟨n, hn, hl, hv⟩ := mem_report _ _ _ _ he
  rw [List.mem_filter] at hn
  have h := heapLabel_of_distinct root n hd hn.1
  rw [hl, hv, ← isLeaf_iff_length]
  refine ⟨h.1, ?_⟩
  intro h2
  have hnl : isLeaf n = false := by
    cases hleaf : isLeaf n with
    | false => rfl
    | true =>
      rw [isLeaf_iff_length] at hleaf
      omega
  rcases h.2 hn.2 hnl with h3 | h3
  · exact Or.inl h3.2.2
  · exact Or.inr h3.2.2

/-- C20 at a concrete input: in the tree 5(3, 4), whose values are distinct, the
root is labelled as a max-heap only and the leaf 3 as both. -/
theorem both_heaps_witness :
    heapLabel example534 = Label.maxHeap ∧ heapLabel (.node 3 .null .null) = Label.maxAndMin := by
  have hd : (preorder example534).Nodup := by decide
  have h1 := (both_heaps_spec.2.1 example534 example534 hd (by decide)).2
    (by
      have c1 : isCompleteBinaryTree example534 = true := by
        simp [example534, isCompleteBinaryTree, completeLoop]
      have m1 : isMaxHeap example534 = true := by decide
      have l1 : isLeftLessThanRight example534 = true := by decide
      simp [isHeapSubtree, m1, c1, l1])
    (by decide)
  have h2 := (both_heaps_spec.2.1 example534 (.node 3 .null .null) hd (by decide)).1
  refine ⟨?_, h2.2 (by decide)⟩
  rcases h1 with h1 | h1
  · exact h1.2.2
  · exact absurd h1.1 (by decide)

/-! ### Generation: the values drawn -/

theorem drawFresh_value (lo hi : Int) (used : List Int) : ∀ (draws : List Nat) (v : Int)
    (d : List Nat), drawFresh lo hi used draws = some (v, d) →
    ∃ raw, v = generate_random_number lo hi raw := by
  intro draws
  induction draws with
  | nil => intro v d h; simp [drawFresh] at h
  | cons raw draws ih =>
    intro v d h
    simp only [drawFresh] at h
    split_ifs at h with hm
    · exact ih v d h
    · simp only [Option.some.injEq, Prod.mk.injEq] at h
      exact ⟨raw, h.1.symm⟩

theorem drawFresh_length (lo hi : Int) (used : List Int) : ∀ (draws : List Nat) (v : Int)
    (d : List Nat), drawFresh lo hi used draws = some (v, d) → d.length < draws.length := by
  intro draws
  induction draws with
  | nil => intro v d h; simp [drawFresh] at h
  | cons raw draws ih =>
    intro v d h
    simp only [drawFresh] at h
    split_ifs at h with hm
    · have := ih v d h
      simp only [List.length_cons]
      omega
    · simp only [Option.some.injEq, Prod.mk.injEq] at h
      rw [← h.2]
      simp

theorem insertLoop_sound_values (resize : Int → Int → Int × Int) (N : Int)
    (P : Int → Prop) (R : Int → Int → Prop)
    (hR : ∀ lo hi, R lo hi → ∀ raw, P (generate_random_number lo hi raw))
    (hresize : ∀ lo hi, R lo hi → R (resize lo hi).1 (resize lo hi).2) :
    ∀ (k : Nat) (root : Top) (queue : List Path) (n : Nat) (used : List Int) (lo hi : Int)
      (draws : List Nat) (t : Top),
    (N - n).toNat ≤ k → LoopInv root queue n used → (n : Int) ≤ N → R lo hi →
    (∀ u ∈ used, P u) →
    insertLoop resize N root queue n used lo hi draws = some t →
    ∃ used', TreeInv t N.toNat used' ∧ (∀ u ∈ used', P u) ∧
      N - n ≤ draws.length := by
  intro k
  induction k with
  | zero =>
    intro root queue n used lo hi draws t hk hinv hle _ hP hres
    have hn : ¬ (n : Int) < N := by omega
    rw [insertLoop_done _ _ _ _ _ _ _ _ _ hn] at hres
    cases hres
    have : N.toNat = n := by omega
    exact ⟨used, this ▸ hinv.tree, hP, by omega⟩
  | succ k ih =>
    intro root queue n used lo hi draws t hk hinv hle hRlh hP hres
    by_cases hlt : (n : Int) < N
    · cases queue with
      | nil => exact absurd rfl hinv.queue_ne_nil
      | cons p rest =>
        rw [insertLoop_step _ _ _ _ _ _ _ _ _ _ hlt] at hres
        cases h1 : drawFresh lo hi used draws with
        | none => simp [h1] at hres
        | some r1 =>
          obtain ⟨v₁, d₁⟩ := r1
          have hv₁ := drawFresh_not_mem _ _ _ _ _ _ h1
          have hl₁ := drawFresh_length _ _ _ _ _ _ h1
          obtain ⟨raw₁, hr₁⟩ := drawFresh_value _ _ _ _ _ _ h1
          have hP₁ : ∀ u ∈ v₁ :: used, P u := by
            intro u hu
            rcases List.mem_cons.1 hu with e | e
            · rw [e, hr₁]; exact hR lo hi hRlh raw₁
            · exact hP u e
          simp only [h1] at hres
          by_cases h2 : (n : Int) + 1 < N
          · simp only [h2, if_true] at hres
            cases h3 : drawFresh (resize lo hi).1 (resize lo hi).2 (v₁ :: used) d₁ with
            | none => simp [h3] at hres
            | some r2 =>
              obtain ⟨v₂, d₂⟩ := r2
              have hv₂ := drawFresh_not_mem _ _ _ _ _ _ h3
              have hl₂ := drawFresh_length _ _ _ _ _ _ h3
              obtain ⟨raw₂, hr₂⟩ := drawFresh_value _ _ _ _ _ _ h3
              have hP₂ : ∀ u ∈ v₂ :: v₁ :: used, P u := by
                intro u hu
                rcases List.mem_cons.1 hu with e | e
                · rw [e, hr₂]; exact hR _ _ (hresize lo hi hRlh) raw₂
                · exact hP₁ u e
              simp only [h3] at hres
              have hcast : ((n : Int) + 1 + 1) = ((n + 1 + 1 : Nat) : Int) := by push_cast; ring
              rw [hcast] at hres
              obtain ⟨used', ht, hP', hlen⟩ := ih _ _ _ _ _ _ _ t (by omega)
                (hinv.step v₁ v₂ hv₁ hv₂) (by omega)
                (hresize _ _ (hresize lo hi hRlh)) hP₂ hres
              refine ⟨used', ht, hP', ?_⟩
              push_cast at hlen
              omega
          · simp only [h2, if_false, Option.some.injEq] at hres
            subst hres
            have : N.toNat = n + 1 := by omega
            exact ⟨v₁ :: used, this ▸ (hinv.step_left v₁ hv₁).1, hP₁, by omega⟩
    · rw [insertLoop_done _ _ _ _ _ _ _ _ _ hlt] at hres
      cases hres
      have : N.toNat = n := by omega
      exact ⟨used, this ▸ hinv.tree, hP, by omega⟩

theorem length_preorder (t : Top) : (preorder t).length = t.size := by
  induction t with
  | null => rfl
  | node v l r ihl ihr => simp [preorder, Top.size, ihl, ihr]; omega

theorem TreeInv.length_used {t : Top} {n : Nat} {used : List Int} (h : TreeInv t n used) :
    used.length = n := by
  rw [← h.vals.length_eq, collectSubtreeNodes_eq_preorder, length_preorder, h.size_eq]

theorem length_le_of_nodup_range (used : List Int) (lo hi : Int) (hd : used.Nodup)
    (h : ∀ u ∈ used, lo ≤ u ∧ u ≤ hi) : (used.length : Int) ≤ max (hi + 1 - lo) 0 := by
  have hsub : used.toFinset ⊆ Finset.Icc lo hi := by
    intro u hu
    rw [List.mem_toFinset] at hu
    rw [Finset.mem_Icc]
    exact h u hu
  have hc := Finset.card_le_card hsub
  rw [List.toFinset_card_of_nodup hd, Int.card_Icc] at hc
  have : ((hi + 1 - lo).toNat : Int) = max (hi + 1 - lo) 0 := Int.toNat_eq_max _
  omega

theorem generateRnd_some_le (N : Int) (held : Top) (draws : List Nat) (t : Top)
    (h : generateRnd N held draws = some t) : N ≤ 120000 := by
  by_cases hN : 1 ≤ N
  · unfold generateRnd at h
    simp only [not_lt.2 hN, if_false] at h
    cases draws with
    | nil => simp at h
    | cons raw draws =>
      simp only [newTop_setValue] at h
      obtain ⟨used', ht, hP, _⟩ := insertLoop_sound_values (fun lo hi => (lo, hi)) N
        (fun u => 1 ≤ u ∧ u ≤ 120000) (fun lo hi => lo = 1 ∧ hi = 120000)
        (by
          rintro lo hi ⟨rfl, rfl⟩ raw
          exact generate_random_number_mem 1 120000 raw (by norm_num))
        (fun lo hi h => h) _ _ _ 1 _ _ _ _ t (le_refl _) (LoopInv.initial _)
        (by simpa using hN) ⟨rfl, rfl⟩
        (by
          intro u hu
          simp only [List.mem_singleton] at hu
          rw [hu]
          exact generate_random_number_mem 1 120000 raw (by norm_num))
        h
      have hlen := ht.length_used
      have hle := length_le_of_nodup_range used' 1 120000 ht.nodup hP
      rw [hlen] at hle
      have : (N.toNat : Int) = N := Int.toNat_of_nonneg (by omega)
      norm_num at hle
      omega
  · omega

/-- C16: the retry loop of `generateRnd` is not guarded against exhaustion of
the range.  For every count `N > 120000` and every sequence of draws from
`[1, 120000]`, however long, `generateRnd N` does not complete: no finite
sequence of draws yields a tree. -/
theorem generateRnd_exhausted_spec (N : Int) (held : Top) (draws : List Nat)
    (hN : 120000 < N) : generateRnd N held draws = none := by
  cases h : generateRnd N held draws with
  | none => rfl
  | some t =>
    have := generateRnd_some_le N held draws t h
    omega

/-- C16 at a concrete input: `generateRnd 120001` on three draws. -/
theorem generateRnd_exhausted_witness :
    generateRnd 120001 Top.null [0, 1, 2] = none :=
  generateRnd_exhausted_spec 120001 Top.null [0, 1, 2] (by norm_num)

/-! ### Generation: the ranges of `generate` -/

theorem claimedRange_valid (k : Nat) : (claimedRange k).1 ≤ (claimedRange k).2 := by
  unfold claimedRange
  split_ifs <;> simp

theorem claimedRange_lt (k k' : Nat) (hk : 1 ≤ k) (h : k < k') :
    (claimedRange k).2 < (claimedRange k').1 := by
  unfold claimedRange
  split_ifs <;> simp <;> omega

theorem claimedRange_nonneg (k : Nat) (hk : 1 ≤ k) : 0 ≤ (claimedRange k).2 := by
  unfold claimedRange
  split_ifs
  · simp
  · simp
  · simp only
    omega

theorem claimedRange_upper (k : Nat) (hk : 2 ≤ k) : (claimedRange k).2 = 16 + 6 * ((k : Int) - 2) := by
  unfold claimedRange
  split_ifs <;> simp <;> omega

theorem resizeRange_claimedRange (n : Nat) (hn : 1 ≤ n) (hb : (n : Int) + 1 ≤ 357913939) :
    resizeRange (claimedRange (n + 1)).1 (claimedRange (n + 1)).2 5 = claimedRange (n + 2) := by
  have hu := claimedRange_upper (n + 1) (by omega)
  rw [resizeRange_five _ _ (claimedRange_nonneg _ (by omega)) (by rw [hu]; omega), hu]
  unfold claimedRange
  split_ifs with h1 h2
  · omega
  · have : n = 0 := by omega
    omega
  · ext <;> simp <;> ring

theorem mem_numberedValues_modify (s : Side) (v : Int) (q : Nat × Int) (t : Top) :
    ∀ (p : Path) (i : Nat), t.slotFree p s →
      (q ∈ numberedValues (t.modify (Node.attach s (.node v .null .null)) p) i ↔
        q ∈ numberedValues t i ∨ q = (s.childIdx (pathIdx i p), v)) := by
  induction t with
  | null => intro p i h; simp [Top.slotFree] at h
  | node w l r ihl ihr =>
    intro p i h
    cases p with
    | nil =>
      cases s
      · simp only [Top.slotFree] at h
        subst h
        simp [Top.modify, Node.attach, Node.toTop, numberedValues, pathIdx, Side.childIdx]
        tauto
      · simp only [Top.slotFree] at h
        subst h
        simp [Top.modify, Node.attach, Node.toTop, numberedValues, pathIdx, Side.childIdx]
        tauto
    | cons d p =>
      cases d
      · simp only [Top.slotFree] at h
        simp only [Top.modify, numberedValues, List.mem_cons, List.mem_append, ihl p _ h,
          pathIdx, Side.childIdx]
        tauto
      · simp only [Top.slotFree] at h
        simp only [Top.modify, numberedValues, List.mem_cons, List.mem_append, ihr p _ h,
          pathIdx, Side.childIdx]
        tauto

theorem numbering_eq_map (t : Top) : ∀ i : Nat,
    numbering t i = (numberedValues t i).map Prod.fst := by
  induction t with
  | null => intro i; rfl
  | node v l r ihl ihr => intro i; simp [numbering, numberedValues, ihl, ihr]

theorem drop_eq_cons_of_lt (full : List Nat) (n : Nat) (h : n < full.length) :
    ∃ raw, full[n]? = some raw ∧ full.drop n = raw :: full.drop (n + 1) := by
  refine ⟨full[n], List.getElem?_eq_getElem h, ?_⟩
  exact List.drop_eq_getElem_cons h

theorem insertLoop_grow_values (N : Int) (full : List Nat) (hb : N ≤ 357913940)
    (hfull : N ≤ full.length) :
    ∀ (k : Nat) (root : Top) (queue : List Path) (n : Nat) (used : List Int) (lo hi : Int),
    (N - n).toNat ≤ k → LoopInv root queue n used → 1 ≤ n → (n : Int) ≤ N →
    ((n : Int) < N → lo = (claimedRange (n + 1)).1 ∧ hi = (claimedRange (n + 1)).2) →
    ((n : Int) < N → ∀ u ∈ used, u < lo) →
    (∀ q ∈ numberedValues root 1, DrawnFrom full q.1 q.2) →
    ∃ t, insertLoop (fun lo hi => resizeRange lo hi 5) N root queue n used lo hi
        (full.drop n) = some t ∧
      ∀ q ∈ numberedValues t 1, DrawnFrom full q.1 q.2 := by
  intro k
  induction k with
  | zero =>
    intro root queue n used lo hi hk _ _ hle _ _ hval
    exact ⟨root, insertLoop_done _ _ _ _ _ _ _ _ _ (by omega), hval⟩
  | succ k ih =>
    intro root queue n used lo hi hk hinv hn hle hr hu hval
    by_cases hlt : (n : Int) < N
    · obtain ⟨rfl, rfl⟩ := hr hlt
      have hu := hu hlt
      cases queue with
      | nil => exact absurd rfl hinv.queue_ne_nil
      | cons p rest =>
        obtain ⟨j, hp, hrest, hc, hnot⟩ := hinv.front
        have hleaf := hinv.leaf p (List.mem_cons_self _ _)
        rw [insertLoop_step _ _ _ _ _ _ _ _ _ _ hlt]
        obtain ⟨raw₁, hg₁, hd₁⟩ := drop_eq_cons_of_lt full n (by omega)
        have hm₁ := generate_random_number_mem _ _ raw₁ (claimedRange_valid (n + 1))
        rw [hd₁]
        simp only [drawFresh_of_lt _ _ used raw₁ _ hu (claimedRange_valid (n + 1))]
        have hv₁ : generate_random_number (claimedRange (n + 1)).1 (claimedRange (n + 1)).2 raw₁
            ∉ used := by
          intro hmem
          have := hu _ hmem
          omega
        have hu₁ : ∀ u ∈ generate_random_number (claimedRange (n + 1)).1
            (claimedRange (n + 1)).2 raw₁ :: used, u < (claimedRange (n + 2)).1 := by
          have hlt' := claimedRange_lt (n + 1) (n + 2) (by omega) (by omega)
          intro u hmem
          rcases List.mem_cons.1 hmem with e | e
          · omega
          · have := hu u e
            omega
        have hval₁ : ∀ q ∈ numberedValues
            (root.modify (Node.attach .left (.node (generate_random_number
              (claimedRange (n + 1)).1 (claimedRange (n + 1)).2 raw₁) .null .null)) p) 1,
            DrawnFrom full q.1 q.2 := by
          intro q hq
          rw [mem_numberedValues_modify _ _ _ _ _ _ hleaf.1] at hq
          rcases hq with hq | hq
          · exact hval q hq
          · rw [hq]
            have e : Side.left.childIdx (pathIdx 1 p) = n + 1 := by
              simp only [Side.childIdx, hp]
              omega
            rw [e]
            exact ⟨raw₁, by simpa using hg₁, rfl⟩
        by_cases h2 : (n : Int) + 1 < N
        · simp only [h2, if_true, resizeRange_claimedRange n hn (by omega)]
          obtain ⟨raw₂, hg₂, hd₂⟩ := drop_eq_cons_of_lt full (n + 1) (by omega)
          have hm₂ := generate_random_number_mem _ _ raw₂ (claimedRange_valid (n + 2))
          rw [hd₂]
          simp only [drawFresh_of_lt _ _ _ raw₂ _ hu₁ (claimedRange_valid (n + 2))]
          have hv₂ : generate_random_number (claimedRange (n + 2)).1 (claimedRange (n + 2)).2 raw₂
              ∉ generate_random_number (claimedRange (n + 1)).1
                (claimedRange (n + 1)).2 raw₁ :: used := by
            intro hmem
            have := hu₁ _ hmem
            omega
          have hcast : ((n : Int) + 1 + 1) = ((n + 1 + 1 : Nat) : Int) := by push_cast; ring
          rw [hcast]
          apply ih _ _ (n + 1 + 1) _ _ _ (by omega) (hinv.step _ _ hv₁ hv₂) (by omega)
            (by push_cast; omega)
          · intro h3
            have := resizeRange_claimedRange (n + 1) (by omega) (by push_cast at h3 ⊢; omega)
            rw [this]
            exact ⟨rfl, rfl⟩
          · intro h3
            have := resizeRange_claimedRange (n + 1) (by omega) (by push_cast at h3 ⊢; omega)
            rw [this]
            have hlt' := claimedRange_lt (n + 2) (n + 1 + 2) (by omega) (by omega)
            intro u hmem
            rcases List.mem_cons.1 hmem with e | e
            · omega
            · have := hu₁ u e
              omega
          · intro q hq
            rw [mem_numberedValues_modify _ _ _ _ _ _ (hinv.step_left _ hv₁).2.2] at hq
            rcases hq with hq | hq
            · exact hval₁ q hq
            · rw [hq]
              have e : Side.right.childIdx (pathIdx 1 p) = n + 2 := by
                simp only [Side.childIdx, hp]
                omega
              rw [e]
              exact ⟨raw₂, by simpa using hg₂, rfl⟩
        · simp only [h2, if_false]
          exact ⟨_, rfl, hval₁⟩
    · exact ⟨root, insertLoop_done _ _ _ _ _ _ _ _ _ hlt, hval⟩

theorem generate_values (N : Int) (held : Top) (draws : List Nat) (hN : 1 ≤ N)
    (hb : N ≤ 357913940) (hd : N ≤ draws.length) :
    ∃ t, generate N held draws = some t ∧
      ∀ q ∈ numberedValues t 1, DrawnFrom draws q.1 q.2 := by
  cases draws with
  | nil => simp at hd; omega
  | cons raw rest =>
    have e : claimedRange (1 + 1) = (6, 16) := by decide
    have h := insertLoop_grow_values N (raw :: rest) hb hd _
      (.node (generate_random_number 1 5 raw) .null .null) [[]] 1
      [generate_random_number 1 5 raw] 6 16 (le_refl _) (LoopInv.initial _) (le_refl _)
      (by simpa using hN)
      (by intro _; rw [e]; exact ⟨rfl, rfl⟩)
      (by
        have hm := generate_random_number_mem 1 5 raw (by norm_num)
        intro _ u hu
        simp only [List.mem_singleton] at hu
        omega)
      (by
        intro q hq
        simp only [numberedValues, List.append_nil, List.mem_singleton] at hq
        rw [hq]
        exact ⟨raw, by simp, rfl⟩)
    unfold generate
    simp only [not_lt.2 hN, if_false, newTop_setValue, resizeRange_first]
    exact h

theorem insertLoop_some_length (resize : Int → Int → Int × Int) (N : Int) :
    ∀ (k : Nat) (root : Top) (queue : List Path) (c : Int) (used : List Int) (lo hi : Int)
      (draws : List Nat) (t : Top),
    (N - c).toNat ≤ k → queue ≠ [] →
    insertLoop resize N root queue c used lo hi draws = some t → N - c ≤ draws.length := by
  intro k
  induction k with
  | zero => intro root queue c used lo hi draws t hk _ _; omega
  | succ k ih =>
    intro root queue c used lo hi draws t hk hq hres
    by_cases hlt : c < N
    · cases queue with
      | nil => exact absurd rfl hq
      | cons p rest =>
        rw [insertLoop_step _ _ _ _ _ _ _ _ _ _ hlt] at hres
        cases h1 : drawFresh lo hi used draws with
        | none => simp [h1] at hres
        | some r1 =>
          obtain ⟨v₁, d₁⟩ := r1
          have hl₁ := drawFresh_length _ _ _ _ _ _ h1
          simp only [h1] at hres
          by_cases h2 : c + 1 < N
          · simp only [h2, if_true] at hres
            cases h3 : drawFresh (resize lo hi).1 (resize lo hi).2 (v₁ :: used) d₁ with
            | none => simp [h3] at hres
            | some r2 =>
              obtain ⟨v₂, d₂⟩ := r2
              have hl₂ := drawFresh_length _ _ _ _ _ _ h3
              simp only [h3] at hres
              have := ih _ _ _ _ _ _ _ t (by omega) (by simp) hres
              omega
          · omega
    · omega

theorem generate_some_length (N : Int) (held : Top) (draws : List Nat) (t : Top)
    (hN : 1 ≤ N) (h : generate N held draws = some t) : N ≤ draws.length := by
  unfold generate at h
  simp only [not_lt.2 hN, if_false] at h
  cases draws with
  | nil => simp at h
  | cons raw rest =>
    have := insertLoop_some_length _ N _ _ _ _ _ _ _ _ t (le_refl _) (by simp) h
    simp only [List.length_cons]
    push_cast
    omega

theorem generate_none_of_short (N : Int) (held : Top) (draws : List Nat) (hN : 1 ≤ N)
    (h : (draws.length : Int) < N) : generate N held draws = none := by
  cases hg : generate N held draws with
  | none => rfl
  | some t =>
    have := generate_some_length N held draws t hN hg
    omega

theorem rangeAt_add_two (k : Nat) (h : k + 2 ≤ 357913940) :
    rangeAt (k + 2) = claimedRange (k + 2) := by
  induction k with
  | zero =>
    rw [rangeAt, resizeRange_first]
    rfl
  | succ k ih =>
    rw [rangeAt, ih (by omega)]
    exact resizeRange_claimedRange (k + 1) (by omega) (by push_cast; omega)

theorem rangeAt_eq_claimedRange (k : Nat) (h1 : 1 ≤ k) (h : k ≤ 357913940) :
    rangeAt k = claimedRange k := by
  obtain ⟨m, rfl⟩ : ∃ m, k = m + 1 := ⟨k - 1, by omega⟩
  cases m with
  | zero => rfl
  | succ m => exact rangeAt_add_two m h

theorem rangeAt_overflow : rangeAt 357913941 = (2147483645, -2147483646) := by
  have h : rangeAt (357913938 + 3) = (2147483645, -2147483646) := by
    rw [rangeAt, rangeAt_add_two 357913938 (by norm_num)]
    norm_num [claimedRange, resizeRange, wrapInt]
  exact h

theorem RangesValid.le {N : Int} (h : RangesValid N) : N ≤ 357913940 := by
  by_contra hc
  have := h 357913941 (by norm_num) (by push_cast; omega)
  rw [rangeAt_overflow] at this
  norm_num at this

theorem rangesValid_of_le (N : Int) (h : N ≤ 357913940) : RangesValid N := by
  intro k hk hkN
  rw [rangeAt_eq_claimedRange k hk (by omega)]
  exact claimedRange_valid k

theorem DrawnFrom.bounds {draws : List Nat} {k : Nat} {v : Int} (h : DrawnFrom draws k v) :
    (claimedRange k).1 ≤ v ∧ v ≤ (claimedRange k).2 := by
  obtain ⟨raw, _, rfl⟩ := h
  exact generate_random_number_mem _ _ raw (claimedRange_valid k)

theorem one_le_of_mem_numberedValues (t : Top) (q : Nat × Int) (h : q ∈ numberedValues t 1) :
    1 ≤ q.1 := by
  have : q.1 ∈ numbering t 1 := by
    rw [numbering_eq_map]
    exact List.mem_map_of_mem _ h
  exact le_of_mem_numbering t 1 _ this

theorem increasing_of_drawnFrom (t : Top) (draws : List Nat)
    (h : ∀ q ∈ numberedValues t 1, DrawnFrom draws q.1 q.2) :
    ∀ p ∈ numberedValues t 1, ∀ q ∈ numberedValues t 1, p.1 < q.1 → p.2 < q.2 := by
  intro p hp q hq hlt
  have h1 := (h p hp).bounds
  have h2 := (h q hq).bounds
  have h3 := claimedRange_lt p.1 q.1 (one_le_of_mem_numberedValues t p hp) hlt
  omega

theorem root_mem_numberedValues (t : Top) (i : Nat) (h : t ≠ Top.null) :
    (i, t.value) ∈ numberedValues t i := by
  cases t with
  | null => exact absurd rfl h
  | node v l r => simp [numberedValues, Top.value]

theorem heap_of_increasing (t : Top) : ∀ i : Nat, 1 ≤ i →
    (∀ p ∈ numberedValues t i, ∀ q ∈ numberedValues t i, p.1 < q.1 → p.2 < q.2) →
    isMinHeap t = true ∧ isLeftLessThanRight t = true := by
  induction t with
  | null => intro i _ _; exact ⟨rfl, rfl⟩
  | node v l r ihl ihr =>
    intro i hi h
    have hroot : (i, v) ∈ numberedValues (.node v l r) i := by simp [numberedValues]
    have hsubl : ∀ q ∈ numberedValues l (2 * i), q ∈ numberedValues (.node v l r) i := by
      intro q hq
      simp [numberedValues, hq]
    have hsubr : ∀ q ∈ numberedValues r (2 * i + 1), q ∈ numberedValues (.node v l r) i := by
      intro q hq
      simp [numberedValues, hq]
    have hl := ihl (2 * i) (by omega) (fun p hp q hq => h p (hsubl p hp) q (hsubl q hq))
    have hr := ihr (2 * i + 1) (by omega) (fun p hp q hq => h p (hsubr p hp) q (hsubr q hq))
    constructor
    · rw [isMinHeap_node]
      refine ⟨?_, hl.1, ?_, hr.1⟩
      · intro hne
        exact (h _ hroot _ (hsubl _ (root_mem_numberedValues l _ hne))
          (by simp only; omega)).le
      · intro hne
        exact (h _ hroot _ (hsubr _ (root_mem_numberedValues r _ hne))
          (by simp only; omega)).le
    · rw [isLeftLessThanRight_node]
      refine ⟨?_, hl.2, hr.2⟩
      intro lv ll lr rv rl rr e1 e2
      subst e1 e2
      have h1 := root_mem_numberedValues (.node lv ll lr) (2 * i) (by simp)
      have h2 := root_mem_numberedValues (.node rv rl rr) (2 * i + 1) (by simp)
      exact h _ (hsubl _ h1) _ (hsubr _ h2) (Nat.lt_succ_self _)

theorem generate_heap (N : Int) (held : Top) (draws : List Nat) (t : Top) (hN : 1 ≤ N)
    (hb : N ≤ 357913940) (h : generate N held draws = some t) :
    isMinHeap t = true ∧ isCompleteBinaryTree t = true ∧ isLeftLessThanRight t = true ∧
    isHeapSubtree t = true ∧ countNodes t = N := by
  have hlen := generate_some_length N held draws t hN h
  obtain ⟨t', ht', hval⟩ := generate_values N held draws hN hb hlen
  rw [h, Option.some.injEq] at ht'
  subst ht'
  obtain ⟨used, hinv⟩ := generate_sound N held draws t hN h
  have hheap := heap_of_increasing t 1 (le_refl _) (increasing_of_drawnFrom t draws hval)
  refine ⟨hheap.1, hinv.complete, hheap.2, ?_, hinv.countNodes_eq hN⟩
  simp [isHeapSubtree, hheap.1, hheap.2, hinv.complete]

/-- C19 as stated fails for large counts.  After the 357913940-th node
`max_value` is 2147483644, and `resizeRange` adds 6 to it: the sum 2147483650
is not an `int`, and the range the code then holds for the 357913941-st node is
`(2147483645, -2147483646)`, not the stated `[17+6(k-3), 22+6(k-3)]`. -/
theorem generate_range_overflow_counterexample :
    rangeAt 357913941 = (2147483645, -2147483646) ∧
    rangeAt 357913941 ≠ (17 + 6 * (357913941 - 3), 22 + 6 * (357913941 - 3)) := by
  refine ⟨rangeAt_overflow, ?_⟩
  rw [rangeAt_overflow]
  decide

/-- C19, amended: for `N ≤ 357913940` (while the ranges fit `int`) the ranges
that `generate N` uses for successive nodes are the ones stated (`[1,5]`,
`[6,16]`, then `[17+6(k-3), 22+6(k-3)]`), pairwise disjoint and increasing; the
`k`-th node in breadth-first insertion order holds what the `k`-th draw gives
in the `k`-th range, so the values strictly increase in insertion order and no
draw is ever retried: `generate N` does not complete on fewer than `N` draws
and completes on `N`. -/
theorem generate_ranges_spec (N : Int) (held : Top) (draws : List Nat) (hN : 1 ≤ N)
    (hb : N ≤ 357913940) :
    (claimedRange 1 = (1, 5) ∧ claimedRange 2 = (6, 16) ∧
      ∀ k : Nat, 3 ≤ k →
        claimedRange k = (17 + 6 * ((k : Int) - 3), 22 + 6 * ((k : Int) - 3))) ∧
    (∀ k : Nat, 1 ≤ k → (k : Int) ≤ N →
      rangeAt k = claimedRange k ∧ (claimedRange k).1 ≤ (claimedRange k).2 ∧
      (claimedRange k).2 < (claimedRange (k + 1)).1) ∧
    ((draws.length : Int) < N → generate N held draws = none) ∧
    (N ≤ (draws.length : Int) → ∃ t, generate N held draws = some t ∧
      (∀ k : Nat, k ∈ (numberedValues t 1).map Prod.fst ↔ (1 ≤ k ∧ (k : Int) ≤ N)) ∧
      (∀ q ∈ numberedValues t 1, ∃ raw, draws[q.1 - 1]? = some raw ∧
        q.2 = generate_random_number (rangeAt q.1).1 (rangeAt q.1).2 raw ∧
        (claimedRange q.1).1 ≤ q.2 ∧ q.2 ≤ (claimedRange q.1).2) ∧
      (∀ p ∈ numberedValues t 1, ∀ q ∈ numberedValues t 1, p.1 < q.1 → p.2 < q.2)) := by
  refine ⟨⟨rfl, rfl, ?_⟩, ?_, generate_none_of_short N held draws hN, ?_⟩
  · intro k hk
    unfold claimedRange
    rw [if_neg (by omega), if_neg (by omega)]
  · intro k hk hkN
    exact ⟨rangeAt_eq_claimedRange k hk (by omega), claimedRange_valid k,
      claimedRange_lt k (k + 1) hk (by omega)⟩
  · intro hd
    obtain ⟨t, ht, hval⟩ := generate_values N held draws hN hb hd
    obtain ⟨used, hinv⟩ := generate_sound N held draws t hN ht
    have hnum : ∀ k : Nat, k ∈ (numberedValues t 1).map Prod.fst ↔ (1 ≤ k ∧ (k : Int) ≤ N) := by
      intro k
      rw [← numbering_eq_map, hinv.numb]
      omega
    refine ⟨t, ht, hnum, ?_, increasing_of_drawnFrom t draws hval⟩
    intro q hq
    obtain ⟨raw, h1, h2⟩ := hval q hq
    have hq1 := (hnum q.1).1 (List.mem_map_of_mem _ hq)
    rw [rangeAt_eq_claimedRange q.1 hq1.1 (by omega)]
    exact ⟨raw, h1, h2, (hval q hq).bounds⟩

/-- C19, amended, at a concrete input: `generate 4` on the draws 0, 0, 0, 0
builds the tree 1(6(23), 17), and does not complete on three draws. -/
theorem generate_ranges_witness :
    generate 4 Top.null [0, 0, 0] = none ∧
    ∃ t, generate 4 Top.null [0, 0, 0, 0] = some t ∧
      (∀ k : Nat, k ∈ (numberedValues t 1).map Prod.fst ↔ (1 ≤ k ∧ (k : Int) ≤ 4)) ∧
      (∀ q ∈ numberedValues t 1, ∃ raw, [0, 0, 0, 0][q.1 - 1]? = some raw ∧
        q.2 = generate_random_number (rangeAt q.1).1 (rangeAt q.1).2 raw ∧
        (claimedRange q.1).1 ≤ q.2 ∧ q.2 ≤ (claimedRange q.1).2) ∧
      (∀ p ∈ numberedValues t 1, ∀ q ∈ numberedValues t 1, p.1 < q.1 → p.2 < q.2) :=
  ⟨(generate_ranges_spec 4 Top.null [0, 0, 0] (by norm_num) (by norm_num)).2.2.1
      (by norm_num),
    (generate_ranges_spec 4 Top.null [0, 0, 0, 0] (by norm_num) (by norm_num)).2.2.2
      (by norm_num)⟩

/-- C18: for every count `N ≥ 1` and every sequence of draws within the ranges
asked for, the tree that `generate N` builds is a min-heap, is complete and has
left-child value < right-child value at every two-child node; every one of its
subtrees is classified "heap", and `checkHeap_notHeap` ends with
`heap_count = N` and `nonheap_count = 0`.  Such a tree is built on every
sequence of at least `N` draws.  The hypothesis `RangesValid N` is the claim's
"in-range draws": every range asked for is a range, so that a draw within it
exists; it holds exactly for `N ≤ 357913940` (`RangesValid.le`,
`rangesValid_of_le`), the counts for which `resizeRange` has not overflowed
`int` before a range is used. -/
theorem generate_all_heap_spec (N : Int) (held : Top) (draws : List Nat) (hN : 1 ≤ N)
    (hr : RangesValid N) :
    (N ≤ (draws.length : Int) → ∃ t, generate N held draws = some t) ∧
    (∀ t : Top, generate N held draws = some t →
      isMinHeap t = true ∧ isCompleteBinaryTree t = true ∧ isLeftLessThanRight t = true ∧
      (∀ n ∈ subtrees t, isHeapSubtree n = true) ∧
      checkHeap_notHeap t (0, 0) = (N, 0)) := by
  have hb := hr.le
  constructor
  · intro hd
    obtain ⟨t, ht, _⟩ := generate_values N held draws hN hb hd
    exact ⟨t, ht⟩
  · intro t h
    obtain ⟨h1, h2, h3, h4, h5⟩ := generate_heap N held draws t hN hb h
    refine ⟨h1, h2, h3, fun n hn => isHeapSubtree_of_mem_subtrees t n hn h4, ?_⟩
    rw [checkHeap_notHeap_of_isHeapSubtree t h4, h5]

/-- C18 at a concrete input: the tree 1(6(23), 17) that `generate 4` builds on
the draws 0, 0, 0, 0. -/
theorem generate_all_heap_witness :
    checkHeap_notHeap
      (.node 1 (.node 6 (.node 23 .null .null) .null) (.node 17 .null .null)) (0, 0)
      = (4, 0) :=
  ((generate_all_heap_spec 4 Top.null [0, 0, 0, 0] (by norm_num)
    (rangesValid_of_le 4 (by norm_num))).2 _
    (by
      simp [generate, insertLoop, drawFresh, generate_random_number, resizeRange, wrapInt,
        newTop, Top.modify, Node.attach, Node.setValue, Node.toTop])).2.2.2.2

end BinaryTree
